import Mathlib

/-!
Verification of the goblici solver (src/main.rs).

The game state is a packed 64-bit integer: nine 6-bit squares at bit
positions 0..53 (cell order: center = 0, ring cells 1..8 clockwise) and a
2-bit mover field at bits 54..55.  We embed the Rust source shallowly:
`u64`/`u8` values become `Nat` (with explicit `% 256` where a `u8` cast or
wrapping `u8` arithmetic can truncate, and wrapping decrement/subtract spelled
out), `i8` becomes `Int` (with the one possible wrap, the `+ 1` in
`modify_parents`, modeled by `i8inc`, and the `u8 as i8` cast by `i8cast`).
Functions that can panic in the source (`get_size_shift`, `get_figure_size`,
`get_opponent`, the `expect` in `modify_parents`, the `assert_ne!` in `main`)
return `Option`, with `none` for the panic.
-/

namespace Goblici

/-- Size code of the small piece (source constant `SMALL`). -/
def SMALL : Nat := 1

/-- Size code of the medium piece (source constant `MEDIUM`). -/
def MEDIUM : Nat := 4

/-- Size code of the large piece (source constant `LARGE`). -/
def LARGE : Nat := 16

/-- Color code of the orange player (source constant `ORANGE`). -/
def ORANGE : Nat := 1

/-- Color code of the blue player (source constant `BLUE`). -/
def BLUE : Nat := 2

/-- Empty color / figure code (source constant `EMPTY`). -/
def EMPTY : Nat := 0

/-- Bit width of one square field (source constant `SQUARE_LENGTH`). -/
def SQUARE_LENGTH : Nat := 6

/-- Mask of one square field (source constant `SQUARE_MASK`). -/
def SQUARE_MASK : Nat := 63

/-- Bitwise complement on 64 bits: the Rust `!` operator on `u64`. -/
def not64 (m : Nat) : Nat := (2 ^ 64 - 1) ^^^ m

/-- Source `get_board_square`: extract the 6-bit square at a cell. -/
def get_board_square (board position : Nat) : Nat :=
  (board >>> (position * SQUARE_LENGTH)) &&& SQUARE_MASK

/-- Source `set_board_square`: clear the 6-bit field of a cell, then OR in
the new square value. -/
def set_board_square (board position square : Nat) : Nat :=
  let shift := position * SQUARE_LENGTH
  let reset_board := board &&& not64 (SQUARE_MASK <<< shift)
  let board_with_item := square <<< shift
  reset_board ||| board_with_item

/-- Source `get_board_player`: bits 54.. of the board, truncated by the
`as Color` (`u8`) cast. -/
def get_board_player (board : Nat) : Nat :=
  (board >>> (SQUARE_LENGTH * 9)) % 256

/-- Source `set_board_player`: clear bits 54..55, then OR in the color. -/
def set_board_player (board color : Nat) : Nat :=
  let shift := SQUARE_LENGTH * 9
  let reset_mask := not64 (3 <<< shift)
  (board &&& reset_mask) ||| (color <<< shift)

/-- Wrapping `u8` decrement, the release-mode meaning of the `-= 1` in
`get_board_remaining`. -/
def u8dec (n : Nat) : Nat := (n + 255) % 256

/-- Source `get_board_remaining`: scan the nine squares, decrement a
per-size reserve counter of 2 whenever the mover's color occupies that
size slot, and list the sizes whose counter stayed positive. -/
def get_board_remaining (board : Nat) : List Nat :=
  let playing := get_board_player board
  let counts := (List.range 9).foldl
    (fun (c : Nat × Nat × Nat) position =>
      let item := get_board_square board position
      let s := if item &&& (playing * SMALL) ≠ 0 then u8dec c.1 else c.1
      let m := if item &&& (playing * MEDIUM) ≠ 0 then u8dec c.2.1 else c.2.1
      let l := if item &&& (playing * LARGE) ≠ 0 then u8dec c.2.2 else c.2.2
      (s, m, l))
    (2, 2, 2)
  (if counts.1 > 0 then [SMALL] else []) ++
    (if counts.2.1 > 0 then [MEDIUM] else []) ++
    (if counts.2.2 > 0 then [LARGE] else [])

/-- Source `get_figure_size`; `none` models the panic on an invalid figure. -/
def get_figure_size (figure : Nat) : Option Nat :=
  if figure = 1 ∨ figure = 2 then some SMALL
  else if figure = 4 ∨ figure = 8 then some MEDIUM
  else if figure = 16 ∨ figure = 32 then some LARGE
  else none

/-- Source `get_opponent`; `none` models the panic on an invalid color. -/
def get_opponent (player : Nat) : Option Nat :=
  if player = ORANGE then some BLUE
  else if player = BLUE then some ORANGE
  else none

/-- Source `get_size_shift`; `none` models the panic on an invalid size. -/
def get_size_shift (size : Nat) : Option Nat :=
  if size = SMALL then some 0
  else if size = MEDIUM then some 2
  else if size = LARGE then some 4
  else none

/-- Source `get_color`: the 2-bit color stored in the given size slot. -/
def get_color (square size : Nat) : Option Nat :=
  (get_size_shift size).map fun shift => (square >>> shift) &&& 3

/-- Source `can_play_at`: the whole square shifted down by the size's
shift, compared with `EMPTY`.  (Note: the source does not mask to the
2-bit slot before comparing.) -/
def can_play_at (square size : Nat) : Option Bool :=
  (get_size_shift size).map fun shift => square >>> shift == EMPTY

/-- Source `get_square_figure`: the figure (color at its size position)
stored in the given size slot. -/
def get_square_figure (square size : Nat) : Option Nat :=
  (get_size_shift size).map fun shift => ((square >>> shift) &&& 3) <<< shift

/-- Source `get_top_figure`: first non-empty figure among large, medium,
small. -/
def get_top_figure (square : Nat) : Option Nat :=
  (get_square_figure square LARGE).bind fun fl =>
  if fl ≠ EMPTY then some fl else
  (get_square_figure square MEDIUM).bind fun fm =>
  if fm ≠ EMPTY then some fm else
  (get_square_figure square SMALL).bind fun fs =>
  if fs ≠ EMPTY then some fs else some EMPTY

/-- Source `get_top_color`: first non-empty color among large, medium,
small slot of the square at a cell. -/
def get_top_color (board position : Nat) : Option Nat :=
  let square := get_board_square board position
  (get_color square LARGE).bind fun cl =>
  if cl ≠ EMPTY then some cl else
  (get_color square MEDIUM).bind fun cm =>
  if cm ≠ EMPTY then some cm else
  (get_color square SMALL).bind fun cs =>
  if cs ≠ EMPTY then some cs else some EMPTY

/-- Source `is_triple`: the common top color of three cells, or `EMPTY`
when the three top colors differ.  The source indexes `positions[0..2]`
of a slice; a shorter list models the index panic as `none`. -/
def is_triple (board : Nat) (positions : List Nat) : Option Nat :=
  match positions with
  | p1 :: p2 :: p3 :: _ =>
    (get_top_color board p1).bind fun col1 =>
    (get_top_color board p2).bind fun col2 =>
    (get_top_color board p3).bind fun col3 =>
    if col1 = col2 ∧ col2 = col3 then some col1 else some EMPTY
  | _ => none

/-- The eight winning triples of `get_winner`, in source order. -/
def triples : List (List Nat) :=
  [[1, 2, 3], [8, 0, 4], [7, 6, 5],
   [1, 8, 7], [2, 0, 6], [3, 4, 5],
   [1, 0, 5], [3, 0, 7]]

/-- Loop of `get_winner`: return the first non-empty triple color. -/
def winnerAux (board : Nat) : List (List Nat) → Option Nat
  | [] => some EMPTY
  | t :: ts =>
    (is_triple board t).bind fun w =>
    if w ≠ EMPTY then some w else winnerAux board ts

/-- Source `get_winner`: first matching triple color, else `EMPTY`. -/
def get_winner (board : Nat) : Option Nat := winnerAux board triples

/-- Source `rotate_board`: rotate the ring by one step (two cells), keep
the center and the mover field. -/
def rotate_board (board : Nat) : Nat :=
  let player := get_board_player board
  let zero := board &&& SQUARE_MASK
  let one_two_mask := (SQUARE_MASK <<< SQUARE_LENGTH) ||| (SQUARE_MASK <<< (SQUARE_LENGTH * 2))
  let seven_mask := SQUARE_MASK <<< (SQUARE_LENGTH * 7)
  let one_two := (board &&& one_two_mask) <<< (SQUARE_LENGTH * 6)
  let shifted_board := (board >>> (SQUARE_LENGTH * 2)) &&& not64 SQUARE_MASK &&& not64 seven_mask
  set_board_player ((shifted_board ||| one_two) ||| zero) player

/-- Source `normalize_board`: the loop `for _ in 0..3` unrolled; track the
minimum of the board and its three rotations. -/
def normalize_board (board : Nat) : Nat :=
  let r1 := rotate_board board
  let m1 := if r1 < board then r1 else board
  let r2 := rotate_board r1
  let m2 := if r2 < m1 then r2 else m1
  let r3 := rotate_board r2
  if r3 < m2 then r3 else m2

/-- Source `get_initial_board`. -/
def get_initial_board : Nat :=
  let board : Nat := 0
  let board := set_board_square board 0 (LARGE * ORANGE)
  let board := set_board_square board 5 (SMALL * BLUE + MEDIUM * ORANGE + LARGE * BLUE)
  let board := set_board_square board 2 (SMALL * ORANGE + MEDIUM * BLUE)
  let board := set_board_square board 8 (LARGE * BLUE)
  let board := set_board_square board 4 (MEDIUM * ORANGE)
  let board := set_board_square board 7 (LARGE * ORANGE)
  let board := set_board_square board 3 (MEDIUM * BLUE)
  let board := set_board_player board ORANGE
  normalize_board board

/-- Source `is_first_state_better`, on `(num_of_children, outcome)` pairs. -/
def is_first_state_better (first second : Nat × Int) : Bool :=
  if second.1 = 0 then false
  else if first.1 = 0 then true
  else if second.2 = -1 then true
  else if first.2 = -1 then false
  else if first.2 > second.2 then true
  else if first.2 < second.2 then false
  else first.1 < second.1

/-- Inner loop of `add_new_items` over the nine target cells for one size.
Each successor is the normalized new board with the mover flipped. -/
def new_items_at (board playing opponent size : Nat) : List Nat → Option (List Nat)
  | [] => some []
  | pos :: rest =>
    let square := get_board_square board pos
    (can_play_at square size).bind fun ok =>
    (new_items_at board playing opponent size rest).bind fun tail =>
    if ok then
      let new_board := set_board_square board pos ((square + (playing * size) % 256) % 256)
      let new_normalized_board := normalize_board new_board
      let new_board_with_player := set_board_player new_normalized_board opponent
      some (new_board_with_player :: tail)
    else some tail

/-- Outer loop of `add_new_items` over the remaining sizes. -/
def add_new_sizes (board playing opponent : Nat) : List Nat → Option (List Nat)
  | [] => some []
  | size :: rest =>
    (new_items_at board playing opponent size (List.range 9)).bind fun l =>
    (add_new_sizes board playing opponent rest).bind fun ls =>
    some (l ++ ls)

/-- Source `add_new_items`: all placement successors, in source order; the
returned list stands for the queue pushes, so `num_of_children` is its
length. -/
def add_new_items (board playing opponent : Nat) : Option (List Nat) :=
  add_new_sizes board playing opponent (get_board_remaining board)

/-- Inner loop of `add_moved_items` over the target cells for one lifted
figure; `pos` is the source cell, which is skipped. -/
def move_targets (board_without_figure figure size opponent pos : Nat) : List Nat → Option (List Nat)
  | [] => some []
  | target_pos :: rest =>
    if target_pos = pos then move_targets board_without_figure figure size opponent pos rest
    else
      let square := get_board_square board_without_figure target_pos
      (can_play_at square size).bind fun ok =>
      (move_targets board_without_figure figure size opponent pos rest).bind fun tail =>
      if ok then
        let new_board := set_board_square board_without_figure target_pos ((square + figure) % 256)
        some (set_board_player (normalize_board new_board) opponent :: tail)
      else some tail

/-- Outer loop of `add_moved_items` over the nine source cells: lift the
mover's top figure, skip the cell when the uncovered board already has a
winner, otherwise relocate the figure to every legal other cell. -/
def add_moved_positions (board playing opponent : Nat) : List Nat → Option (List Nat)
  | [] => some []
  | pos :: rest =>
    (get_top_color board pos).bind fun color =>
    if color ≠ playing then add_moved_positions board playing opponent rest
    else
      let square := get_board_square board pos
      (get_top_figure square).bind fun figure =>
      (get_figure_size figure).bind fun size =>
      let board_without_figure := set_board_square board pos ((square + 256 - figure) % 256)
      (get_winner board_without_figure).bind fun w =>
      if w ≠ EMPTY then add_moved_positions board playing opponent rest
      else
        (move_targets board_without_figure figure size opponent pos (List.range 9)).bind fun l =>
        (add_moved_positions board playing opponent rest).bind fun ls =>
        some (l ++ ls)

/-- Source `add_moved_items`: all relocation successors, in source order. -/
def add_moved_items (board playing opponent : Nat) : Option (List Nat) :=
  add_moved_positions board playing opponent (List.range 9)

/-- One graph record: `(parents, num_of_children, outcome)`, the value type
of the `visited` map in `main`. -/
abbrev GraphRec := List Nat × Nat × Int

/-- The `visited` map of `main`, as an association list. -/
abbrev Visited := List (Nat × GraphRec)

/-- Lookup in the `visited` map. -/
def vlookup : Visited → Nat → Option GraphRec
  | [], _ => none
  | row :: rest, k => if row.1 = k then some row.2 else vlookup rest k

/-- Insert into the `visited` map: replace the first row with this key, or
append a new row. -/
def vinsert : Visited → Nat → GraphRec → Visited
  | [], k, r => [(k, r)]
  | row :: rest, k, r => if row.1 = k then (k, r) :: rest else row :: vinsert rest k r

/-- Increment of an `i8` counter, wrapping at 127 (release semantics of
`state.2 + 1`). -/
def i8inc (o : Int) : Int := if o = 127 then -128 else o + 1

/-- The `u8 as i8` cast applied to `num_of_children` in `modify_parents`. -/
def i8cast (c : Nat) : Int := if c < 128 then (c : Int) else (c : Int) - 256

/-- Source `modify_parents`: walk one propagation wave.  For each parent
key: a missing record is the `expect` panic (`none`); an outcome of `-1`
is skipped; otherwise the outcome is set to `-1` (winning wave) or
incremented (losing wave), and when the new outcome is `-1` or equals the
child count the record's own parents are appended to the next wave. -/
def modify_parents : List Nat → Bool → Visited → Option (List Nat × Visited)
  | [], _, visited => some ([], visited)
  | key :: rest, parent_is_winner, visited =>
    match vlookup visited key with
    | none => none
    | some state =>
      if state.2.2 = -1 then modify_parents rest parent_is_winner visited
      else
        let new_state : GraphRec :=
          if parent_is_winner then (state.1, state.2.1, -1)
          else (state.1, state.2.1, i8inc state.2.2)
        let visited2 := vinsert visited key new_state
        (modify_parents rest parent_is_winner visited2).bind fun res =>
        some ((if new_state.2.2 = -1 ∨ i8cast new_state.2.1 = new_state.2.2
               then new_state.1 else []) ++ res.1, res.2)

/-- The `while !parents.is_empty()` propagation loop of `main`, with an
explicit wave-count fuel (the source loop has no bound; every finite
prefix of the real run is reached at some fuel). -/
def runCascade : Nat → List Nat → Bool → Visited → Option Visited
  | 0, _, _, visited => some visited
  | _ + 1, [], _, visited => some visited
  | fuel + 1, key :: rest, parent_is_winner, visited =>
    (modify_parents (key :: rest) parent_is_winner visited).bind fun res =>
    runCascade fuel res.1 (!parent_is_winner) res.2

/-- State of the traversal loop in `main`: the `visited` map and the
`to_visit` FIFO queue of `(board, parent)` pairs. -/
structure Config where
  visited : Visited
  queue : List (Nat × Option Nat)

/-- One iteration of the traversal loop in `main`.  An empty queue is the
`all is done` break, modeled as a stutter.  `none` is a panic: an invalid
mover color, a missing record in propagation, or the `assert_ne!(winner,
playing)` firing. -/
def step (cascade_fuel : Nat) (cfg : Config) : Option Config :=
  match cfg.queue with
  | [] => some cfg
  | (board, parent) :: rest =>
    let playing := get_board_player board
    (get_opponent playing).bind fun opponent =>
    match vlookup cfg.visited board with
    | some state =>
      some ⟨vinsert cfg.visited board (state.1 ++ parent.toList, state.2.1, state.2.2), rest⟩
    | none =>
      (get_winner board).bind fun winner =>
      if winner ≠ EMPTY then
        if winner = playing then none
        else
          let parents := parent.toList
          let visited1 := vinsert cfg.visited board (parents, 0, 0)
          (runCascade cascade_fuel parents true visited1).map fun v2 => ⟨v2, rest⟩
      else
        (add_new_items board playing opponent).bind fun new_items =>
        (add_moved_items board playing opponent).bind fun moved_items =>
        let children := new_items ++ moved_items
        some ⟨vinsert cfg.visited board (parent.toList, children.length, 0),
              rest ++ children.map fun c => (c, some board)⟩

/-- The configuration seeded by `main`. -/
def initConfig : Config := ⟨[], [(get_initial_board, none)]⟩

/-- Iterate the traversal loop. -/
def stepN (cascade_fuel : Nat) : Nat → Config → Option Config
  | 0, cfg => some cfg
  | n + 1, cfg => (step cascade_fuel cfg).bind (stepN cascade_fuel n)

/-- Contribution of one record to the pending-delivery count of a parent
key: a record that is not `Win` still owes one future counter increment
per occurrence of the parent in its parents list. -/
def recContrib (p : Nat) (rec : GraphRec) : Nat :=
  if rec.2.2 = -1 then 0 else rec.1.count p

/-- Pending deliveries to `p` recorded in the visited map. -/
def pendV (v : Visited) (p : Nat) : Nat := (v.map fun row => recContrib p row.2).sum

/-- Pending deliveries to `p` still sitting in the queue: entries whose
recorded parent is `p`. -/
def pendQ (q : List (Nat × Option Nat)) (p : Nat) : Nat :=
  (q.filter fun e => e.2 == some p).length

/-- All pending deliveries to `p`. -/
def pend (v : Visited) (q : List (Nat × Option Nat)) (p : Nat) : Nat :=
  pendQ q p + pendV v p

/-- Counter increments that the propagation still owes `p` from the wave
lists: the remaining losing wave (role `false`), or the accumulated next
wave while a winning wave (role `true`) runs. -/
def incCnt (L N : List Nat) (r : Bool) (p : Nat) : Nat :=
  cond r (N.count p) (L.count p)

/-- Master row invariant: a record is `Win`, or its counter is
non-negative and the counter plus every delivery it can still receive
stays within its child count (which itself stays below the `i8` range). -/
@[reducible] def MIrow (v : Visited) (q : List (Nat × Option Nat)) (L N : List Nat) (r : Bool)
    (row : Nat × GraphRec) : Prop :=
  row.2.2.2 = -1 ∨
    (0 ≤ row.2.2.2 ∧
      row.2.2.2.toNat + pend v q row.1 + incCnt L N r row.1 ≤ row.2.2.1 ∧
      row.2.2.1 ≤ 126)

/-- A key that a winning wave may legitimately set to `Win`: it is
already `Win`, or strictly below its child count. -/
@[reducible] def winOK (v : Visited) (p : Nat) : Prop :=
  ∀ rec, vlookup v p = some rec → rec.2.2 = -1 ∨ rec.2.2 + 1 ≤ (rec.2.1 : Int)

/-- Safety of the upcoming winning wave: while a winning wave runs, every
member of the remaining list is `winOK`; while a losing wave runs, every
member of the accumulated next (winning) wave stays strictly below its
child count even after all increments still owed by the losing wave. -/
@[reducible] def clauseW (v : Visited) (L N : List Nat) (r : Bool) : Prop :=
  (r = true → ∀ p ∈ L, winOK v p) ∧
  (r = false → ∀ p ∈ N, ∀ rec, vlookup v p = some rec →
    rec.2.2 = -1 ∨ rec.2.2 + (L.count p : Int) + 1 ≤ (rec.2.1 : Int))

/-- A key that may appear as a recorded parent: it has a record and was
expanded (its board has no winner). -/
@[reducible] def memOK (v : Visited) (p : Nat) : Prop :=
  (∃ rec, vlookup v p = some rec) ∧ get_winner p = some EMPTY

/-- Structural invariants: all parents referenced by the queue, by
records, or by wave lists are expanded keys with records, and the map
keys are distinct. -/
@[reducible] def SInv (v : Visited) (q : List (Nat × Option Nat)) (L N : List Nat) : Prop :=
  (∀ e ∈ q, ∀ pp, e.2 = some pp → memOK v pp) ∧
  (∀ row ∈ v, ∀ pp ∈ row.2.1, memOK v pp) ∧
  (∀ p ∈ L, memOK v p) ∧ (∀ p ∈ N, memOK v p) ∧
  (v.map Prod.fst).Nodup

/-- The full invariant of the propagation state. -/
@[reducible] def MIC (v : Visited) (q : List (Nat × Option Nat)) (L N : List Nat) (r : Bool) : Prop :=
  (∀ row ∈ v, MIrow v q L N r row) ∧ clauseW v L N r ∧ SInv v q L N

/-- The invariant between traversal-loop iterations. -/
@[reducible] def MI (cfg : Config) : Prop := MIC cfg.visited cfg.queue [] [] false

/-- Safety property of one traversal-queue entry: the board is
well-formed, its mover field is a real color, and a non-empty winner is
never the mover (the condition checked by the `assert_ne!` in `main`). -/
def entryOK (e : Nat × Option Nat) : Prop :=
  e.1 < 2 ^ 56 ∧ (get_board_player e.1 = ORANGE ∨ get_board_player e.1 = BLUE) ∧
  ∀ w, get_winner e.1 = some w → w ≠ EMPTY → w ≠ get_board_player e.1

/-- Every entry of the traversal queue is safe. -/
def queueInv (cfg : Config) : Prop := ∀ e ∈ cfg.queue, entryOK e

/-!
Theorems.  First a small toolkit of bit-level facts about the packed board
encoding, then the claim theorems.
-/

theorem testBit_below {v w j : Nat} (hv : v < 2 ^ w) (hj : w ≤ j) : v.testBit j = false :=
  Nat.testBit_lt_two_pow (lt_of_lt_of_le hv (Nat.pow_le_pow_right (by norm_num) hj))

theorem testBit_not64_lt {m i : Nat} (hi : i < 64) : (not64 m).testBit i = !m.testBit i := by
  simp only [not64, Nat.testBit_xor, Nat.testBit_two_pow_sub_one, hi, decide_True, Bool.true_xor]

theorem testBit_not64_ge {m i : Nat} (hm : m < 2 ^ 64) (hi : 64 ≤ i) :
    (not64 m).testBit i = false := by
  simp only [not64, Nat.testBit_xor, Nat.testBit_two_pow_sub_one, Nat.not_lt.2 hi, decide_False,
    Bool.false_xor]
  exact testBit_below hm hi

theorem testBit_get_board_square (x q i : Nat) :
    (get_board_square x q).testBit i = (x.testBit (q * 6 + i) && decide (i < 6)) := by
  simp only [get_board_square, SQUARE_MASK, SQUARE_LENGTH, Nat.testBit_and,
    Nat.testBit_shiftRight]
  have h63 : (63 : Nat) = 2 ^ 6 - 1 := by norm_num
  rw [h63, Nat.testBit_two_pow_sub_one]

theorem shiftLeft_63_lt {p : Nat} (hp : p < 9) : (63 : Nat) <<< (p * 6) < 2 ^ 64 := by
  calc (63 : Nat) <<< (p * 6) = 63 * 2 ^ (p * 6) := Nat.shiftLeft_eq 63 (p * 6)
  _ < 64 * 2 ^ (p * 6) := mul_lt_mul_of_pos_right (by norm_num) (Nat.pos_pow_of_pos _ (by norm_num))
  _ = 2 ^ (p * 6 + 6) := by rw [Nat.pow_add]; ring
  _ ≤ 2 ^ 64 := Nat.pow_le_pow_right (by norm_num) (by omega)

theorem hv64 {v : Nat} (hv : v < 64) : v < 2 ^ 6 := by omega

theorem testBit_set_board_square {v p : Nat} (b : Nat) (hp : p < 9) (hv : v < 64) (i : Nat) :
    (set_board_square b p v).testBit i =
      if p * 6 ≤ i ∧ i < p * 6 + 6 then v.testBit (i - p * 6)
      else (b.testBit i && decide (i < 64)) := by
  have h63 : (63 : Nat) = 2 ^ 6 - 1 := by norm_num
  simp only [set_board_square, SQUARE_MASK, SQUARE_LENGTH, Nat.testBit_or, Nat.testBit_and]
  by_cases h64 : i < 64
  · rw [testBit_not64_lt h64]
    simp only [Nat.testBit_shiftLeft, h63, Nat.testBit_two_pow_sub_one, ge_iff_le]
    by_cases hlo : p * 6 ≤ i
    · by_cases hhi : i < p * 6 + 6
      · have h1 : i - p * 6 < 6 := by omega
        simp [hlo, h1, hhi, h64]
      · have h1 : ¬(i - p * 6 < 6) := by omega
        have hvb : v.testBit (i - p * 6) = false := testBit_below (hv64 hv) (by omega)
        simp [hlo, h1, hhi, h64, hvb]
    · have h1 : ¬(p * 6 ≤ i ∧ i < p * 6 + 6) := by omega
      simp [hlo, h1, h64]
  · have hge : 64 ≤ i := Nat.not_lt.1 h64
    have hout : ¬(p * 6 ≤ i ∧ i < p * 6 + 6) := by omega
    have hvb : v.testBit (i - p * 6) = false := testBit_below (hv64 hv) (by omega)
    rw [testBit_not64_ge (shiftLeft_63_lt hp) hge]
    simp [hout, h64, Nat.testBit_shiftLeft, hvb]

theorem testBit_set_board_player {c : Nat} (b : Nat) (hc : c < 4) (i : Nat) :
    (set_board_player b c).testBit i =
      if 54 ≤ i ∧ i < 56 then c.testBit (i - 54)
      else (b.testBit i && decide (i < 64)) := by
  have h3 : (3 : Nat) = 2 ^ 2 - 1 := by norm_num
  have hmask : (3 : Nat) <<< (6 * 9) < 2 ^ 64 := by
    rw [Nat.shiftLeft_eq]; norm_num
  have hc4 : c < 2 ^ 2 := by omega
  simp only [set_board_player, SQUARE_LENGTH, Nat.testBit_or, Nat.testBit_and]
  by_cases h64 : i < 64
  · rw [testBit_not64_lt h64]
    simp only [Nat.testBit_shiftLeft, h3, Nat.testBit_two_pow_sub_one, ge_iff_le]
    by_cases hlo : (54 : Nat) ≤ i
    · by_cases hhi : i < 56
      · have h1 : i - 6 * 9 < 2 := by omega
        have h2 : i - 6 * 9 = i - 54 := by omega
        simp [hlo, h1, h2, hhi, show (6 : Nat) * 9 ≤ i from by omega]
      · have h1 : ¬(i - 6 * 9 < 2) := by omega
        have hcb : c.testBit (i - 6 * 9) = false := testBit_below hc4 (by omega)
        have hcb2 : c.testBit (i - 54) = false ∨ True := Or.inr trivial
        simp [hlo, h1, hhi, h64, hcb, show (6 : Nat) * 9 ≤ i from by omega]
    · have h1 : ¬(54 ≤ i ∧ i < 56) := by omega
      simp [h1, h64, show ¬((6 : Nat) * 9 ≤ i) from by omega]
  · have hge : 64 ≤ i := Nat.not_lt.1 h64
    have hout : ¬(54 ≤ i ∧ i < 56) := by omega
    have hcb : c.testBit (i - 6 * 9) = false := testBit_below hc4 (by omega)
    rw [testBit_not64_ge hmask hge]
    simp [hout, h64, Nat.testBit_shiftLeft, hcb]

theorem get_set_board_square_self {b p v : Nat} (hp : p < 9) (hv : v < 64) :
    get_board_square (set_board_square b p v) p = v := by
  apply Nat.eq_of_testBit_eq
  intro i
  rw [testBit_get_board_square, testBit_set_board_square b hp hv]
  by_cases h6 : i < 6
  · have hin : p * 6 ≤ p * 6 + i ∧ p * 6 + i < p * 6 + 6 := by omega
    simp [hin, h6, Nat.add_sub_cancel_left]
  · have hin : ¬(p * 6 ≤ p * 6 + i ∧ p * 6 + i < p * 6 + 6) := by omega
    simp [hin, h6, testBit_below (hv64 hv) (Nat.not_lt.1 h6)]

theorem get_set_board_square_other {b p q v : Nat} (hp : p < 9) (hq : q < 9) (hne : q ≠ p)
    (hv : v < 64) : get_board_square (set_board_square b p v) q = get_board_square b q := by
  apply Nat.eq_of_testBit_eq
  intro i
  rw [testBit_get_board_square, testBit_get_board_square, testBit_set_board_square b hp hv]
  by_cases h6 : i < 6
  · have hin : ¬(p * 6 ≤ q * 6 + i ∧ q * 6 + i < p * 6 + 6) := by
      rcases Nat.lt_or_ge q p with h | h
      · intro hx; omega
      · have : q > p := lt_of_le_of_ne h (Ne.symm hne)
        intro hx; omega
    have h64 : q * 6 + i < 64 := by omega
    simp [hin, h6, h64]
  · simp [h6]

theorem get_board_player_set_square {b p v : Nat} (hp : p < 9) (hv : v < 64) :
    get_board_player (set_board_square b p v) = get_board_player b := by
  have h256 : (256 : Nat) = 2 ^ 8 := by norm_num
  simp only [get_board_player, SQUARE_LENGTH, h256]
  apply Nat.eq_of_testBit_eq
  intro i
  simp only [Nat.testBit_mod_two_pow, Nat.testBit_shiftRight]
  by_cases h8 : i < 8
  · have hin : ¬(p * 6 ≤ 6 * 9 + i ∧ 6 * 9 + i < p * 6 + 6) := by omega
    have h64 : 6 * 9 + i < 64 := by omega
    rw [testBit_set_board_square b hp hv]
    simp [hin, h8, h64]
  · simp [h8]

theorem get_set_board_player {b c : Nat} (hb : b < 2 ^ 56) (hc : c < 4) :
    get_board_player (set_board_player b c) = c := by
  have h256 : (256 : Nat) = 2 ^ 8 := by norm_num
  simp only [get_board_player, SQUARE_LENGTH, h256]
  apply Nat.eq_of_testBit_eq
  intro i
  simp only [Nat.testBit_mod_two_pow, Nat.testBit_shiftRight]
  by_cases h2 : i < 2
  · have hin : 54 ≤ 6 * 9 + i ∧ 6 * 9 + i < 56 := by omega
    rw [testBit_set_board_player b hc]
    have : 6 * 9 + i - 54 = i := by omega
    simp [hin, h2, this, show i < 8 from by omega]
  · have hcb : c.testBit i = false := testBit_below (show c < 2 ^ 2 from by omega) (by omega)
    rw [testBit_set_board_player b hc]
    by_cases h8 : i < 8
    · have hin : ¬(54 ≤ 6 * 9 + i ∧ 6 * 9 + i < 56) := by omega
      have hbb : b.testBit (6 * 9 + i) = false := testBit_below hb (by omega)
      simp [hin, h8, hbb, hcb]
    · simp [h8, hcb]

theorem get_square_set_board_player {b c q : Nat} (hq : q < 9) (hc : c < 4) :
    get_board_square (set_board_player b c) q = get_board_square b q := by
  apply Nat.eq_of_testBit_eq
  intro i
  rw [testBit_get_board_square, testBit_get_board_square, testBit_set_board_player b hc]
  by_cases h6 : i < 6
  · have hin : ¬(54 ≤ q * 6 + i ∧ q * 6 + i < 56) := by omega
    have h64 : q * 6 + i < 64 := by omega
    simp [hin, h6, h64]
  · simp [h6]

/-- C9: on a well-formed board the codec getters and setters are mutual
inverses: setting a square and reading it back at the same position yields
the value; reading any other position, or the mover field, is unchanged;
setting the player and reading it back yields the color, and all nine
squares are unchanged by it. -/
theorem c9_codec_roundtrip (b p v c : Nat) (hb : b < 2 ^ 56) (hp : p < 9) (hv : v < 64)
    (hc : c < 4) :
    get_board_square (set_board_square b p v) p = v ∧
    (∀ q, q < 9 → q ≠ p → get_board_square (set_board_square b p v) q = get_board_square b q) ∧
    get_board_player (set_board_square b p v) = get_board_player b ∧
    get_board_player (set_board_player b c) = c ∧
    (∀ q, q < 9 → get_board_square (set_board_player b c) q = get_board_square b q) :=
  ⟨get_set_board_square_self hp hv,
   fun _ hq hne => get_set_board_square_other hp hq hne hv,
   get_board_player_set_square hp hv,
   get_set_board_player hb hc,
   fun _ hq => get_square_set_board_player hq hc⟩

/-- Witness for C9 at a concrete well-formed board. -/
theorem c9_codec_roundtrip_witness :
    get_board_square (set_board_square 18181807895872528 3 21 ) 3 = 21 ∧
    get_board_player (set_board_player 18181807895872528 2) = 2 := by
  have h := c9_codec_roundtrip 18181807895872528 3 21 2 (by norm_num) (by norm_num)
    (by norm_num) (by norm_num)
  exact ⟨h.1, h.2.2.2.1⟩

/-- C2 is refuted by the square holding only a large orange piece: its
small slot is empty, yet `can_play_at` forbids placing a small piece
there (the source compares the whole shifted square with `EMPTY`, so any
occupied larger slot also blocks).  The repository's own test asserts
exactly this behavior. -/
theorem c2_counterexample :
    can_play_at (LARGE * ORANGE) SMALL = some false ∧
    get_color (LARGE * ORANGE) SMALL = some EMPTY := by decide

/-- C2 amended: `can_play_at` is `false` exactly when some slot of the
queried size or larger is non-empty; a strictly smaller occupied slot
alone does not block. -/
theorem c2_amended (square size : Nat) (hsq : square < 64)
    (hsize : size ∈ [SMALL, MEDIUM, LARGE]) :
    can_play_at square size = some false ↔
      ∃ size2 ∈ [SMALL, MEDIUM, LARGE], size ≤ size2 ∧ get_color square size2 ≠ some EMPTY := by
  fin_cases hsize
  · exact (by decide :
      ∀ s, s < 64 → (can_play_at s SMALL = some false ↔
        ∃ size2 ∈ [SMALL, MEDIUM, LARGE], SMALL ≤ size2 ∧ get_color s size2 ≠ some EMPTY))
      square hsq
  · exact (by decide :
      ∀ s, s < 64 → (can_play_at s MEDIUM = some false ↔
        ∃ size2 ∈ [SMALL, MEDIUM, LARGE], MEDIUM ≤ size2 ∧ get_color s size2 ≠ some EMPTY))
      square hsq
  · exact (by decide :
      ∀ s, s < 64 → (can_play_at s LARGE = some false ↔
        ∃ size2 ∈ [SMALL, MEDIUM, LARGE], LARGE ≤ size2 ∧ get_color s size2 ≠ some EMPTY))
      square hsq

/-- Witness for the amended C2 at the counterexample square. -/
theorem c2_amended_witness :
    can_play_at (LARGE * ORANGE) SMALL = some false ↔
      ∃ size2 ∈ [SMALL, MEDIUM, LARGE], SMALL ≤ size2 ∧
        get_color (LARGE * ORANGE) size2 ≠ some EMPTY :=
  c2_amended (LARGE * ORANGE) SMALL (by decide) (by decide)

/-- C1 is refuted on all three counts: the comparator prefers a
zero-children candidate over one with five children, does not prefer a
`Win` (`-1`) candidate over a non-`Win` one, and does not prefer the lower
of two `Undetermined` counters. -/
theorem c1_counterexample :
    is_first_state_better (0, 0) (5, 0) = true ∧
    is_first_state_better (1, -1) (1, 0) = false ∧
    is_first_state_better (2, 0) (2, 1) = false := by decide

/-- C1 amended: the actual comparator preferences.  A candidate with zero
recorded children always beats one with children and a zero-children best
is never displaced; among candidates with children a `Win` (`-1`) best is
always displaced and a `Win` candidate never displaces a non-`Win` best;
between two non-`Win` candidates with children the higher
`Undetermined(k)` counter is preferred, with ties broken by the smaller
child count. -/
theorem c1_amended (c1 c2 : Nat) (o1 o2 : Int) :
    (c2 = 0 → is_first_state_better (c1, o1) (c2, o2) = false) ∧
    (c2 ≠ 0 → c1 = 0 → is_first_state_better (c1, o1) (c2, o2) = true) ∧
    (c1 ≠ 0 → c2 ≠ 0 → o2 = -1 → is_first_state_better (c1, o1) (c2, o2) = true) ∧
    (c1 ≠ 0 → c2 ≠ 0 → o1 = -1 → o2 ≠ -1 → is_first_state_better (c1, o1) (c2, o2) = false) ∧
    (c1 ≠ 0 → c2 ≠ 0 → o1 ≠ -1 → o2 ≠ -1 → o2 < o1 →
      is_first_state_better (c1, o1) (c2, o2) = true) ∧
    (c1 ≠ 0 → c2 ≠ 0 → o1 ≠ -1 → o2 ≠ -1 → o1 < o2 →
      is_first_state_better (c1, o1) (c2, o2) = false) ∧
    (c1 ≠ 0 → c2 ≠ 0 → o1 ≠ -1 → o2 ≠ -1 → o1 = o2 →
      (is_first_state_better (c1, o1) (c2, o2) = true ↔ c1 < c2)) := by
  refine ⟨fun h => ?_, fun h2 h1 => ?_, fun h1 h2 h => ?_, fun h1 h2 h ho2 => ?_,
    fun h1 h2 ho1 ho2 h => ?_, fun h1 h2 ho1 ho2 h => ?_, fun h1 h2 ho1 ho2 h => ?_⟩
  · simp [is_first_state_better, h]
  · simp [is_first_state_better, h1, h2]
  · simp [is_first_state_better, h1, h2, h]
  · simp [is_first_state_better, h1, h2, h, ho2]
  · simp [is_first_state_better, h1, h2, ho1, ho2, h]
  · have : ¬(o2 < o1) := by omega
    simp [is_first_state_better, h1, h2, ho1, ho2, h, this]
  · have hlt : ¬(o2 < o1) := by omega
    have hlt2 : ¬(o1 < o2) := by omega
    simp [is_first_state_better, h1, h2, ho1, ho2, hlt, hlt2]

/-- Witness for the amended C1 at the counterexample inputs. -/
theorem c1_amended_witness : is_first_state_better (0, 0) (5, 0) = true :=
  (c1_amended 0 5 0 0).2.1 (by decide) rfl

theorem get_color_LARGE (sq : Nat) : get_color sq LARGE = some ((sq >>> 4) &&& 3) := rfl

theorem get_color_MEDIUM (sq : Nat) : get_color sq MEDIUM = some ((sq >>> 2) &&& 3) := rfl

theorem get_color_SMALL (sq : Nat) : get_color sq SMALL = some ((sq >>> 0) &&& 3) := rfl

theorem get_top_color_some (b p : Nat) : ∃ c, get_top_color b p = some c := by
  simp only [get_top_color, get_color_LARGE, get_color_MEDIUM, get_color_SMALL,
    Option.some_bind]
  split
  · exact ⟨_, rfl⟩
  · split
    · exact ⟨_, rfl⟩
    · split
      · exact ⟨_, rfl⟩
      · exact ⟨_, rfl⟩

theorem get_top_color_congr {b pos b2 pos2 : Nat}
    (h : get_board_square b pos = get_board_square b2 pos2) :
    get_top_color b pos = get_top_color b2 pos2 := by
  unfold get_top_color
  rw [h]

theorem is_triple_some (b p1 p2 p3 : Nat) (rest : List Nat) :
    ∃ c, is_triple b (p1 :: p2 :: p3 :: rest) = some c := by
  obtain ⟨c1, h1⟩ := get_top_color_some b p1
  obtain ⟨c2, h2⟩ := get_top_color_some b p2
  obtain ⟨c3, h3⟩ := get_top_color_some b p3
  simp only [is_triple, h1, h2, h3, Option.some_bind]
  split
  · exact ⟨_, rfl⟩
  · exact ⟨_, rfl⟩

theorem is_triple_eq_iff {b c : Nat} (p1 p2 p3 : Nat) (rest : List Nat) (hc : c ≠ EMPTY) :
    is_triple b (p1 :: p2 :: p3 :: rest) = some c ↔
      get_top_color b p1 = some c ∧ get_top_color b p2 = some c ∧
        get_top_color b p3 = some c := by
  obtain ⟨c1, h1⟩ := get_top_color_some b p1
  obtain ⟨c2, h2⟩ := get_top_color_some b p2
  obtain ⟨c3, h3⟩ := get_top_color_some b p3
  simp only [is_triple, h1, h2, h3, Option.some_bind]
  constructor
  · intro h
    by_cases heq : c1 = c2 ∧ c2 = c3
    · rw [if_pos heq] at h
      have hc1 : c1 = c := Option.some_inj.1 h
      exact ⟨congrArg some hc1, congrArg some (heq.1.symm.trans hc1),
        congrArg some ((heq.1.trans heq.2).symm.trans hc1)⟩
    · rw [if_neg heq] at h
      exact absurd (Option.some_inj.1 h).symm hc
  · rintro ⟨hh1, hh2, hh3⟩
    have e1 : c1 = c := Option.some_inj.1 hh1
    have e2 : c2 = c := Option.some_inj.1 hh2
    have e3 : c3 = c := Option.some_inj.1 hh3
    rw [if_pos ⟨e1.trans e2.symm, e2.trans e3.symm⟩]
    exact congrArg some e1

theorem winnerAux_empty_iff (b : Nat) (l : List (List Nat))
    (hl : ∀ t ∈ l, ∃ c, is_triple b t = some c) :
    (winnerAux b l = some EMPTY ↔ ∀ t ∈ l, is_triple b t = some EMPTY) := by
  induction l with
  | nil => simp [winnerAux]
  | cons t ts ih =>
    obtain ⟨c, hc⟩ := hl t (List.mem_cons_self t ts)
    have ihl : ∀ t2 ∈ ts, ∃ c2, is_triple b t2 = some c2 :=
      fun t2 h2 => hl t2 (List.mem_cons_of_mem _ h2)
    by_cases hce : c = EMPTY
    · subst hce
      simp only [winnerAux, hc, Option.some_bind]
      rw [if_neg (by simp : ¬EMPTY ≠ EMPTY)]
      rw [ih ihl]
      constructor
      · intro h t2 ht2
        rcases List.mem_cons.1 ht2 with h2 | h2
        · subst h2; exact hc
        · exact h t2 h2
      · intro h t2 ht2
        exact h t2 (List.mem_cons_of_mem _ ht2)
    · simp only [winnerAux, hc, Option.some_bind]
      rw [if_pos hce]
      constructor
      · intro h
        exact absurd (Option.some_inj.1 h) hce
      · intro h
        exact absurd (Option.some_inj.1 (hc ▸ h t (List.mem_cons_self t ts))) hce

theorem winnerAux_some_iff {b c : Nat} (hcne : c ≠ EMPTY) (l : List (List Nat))
    (hl : ∀ t ∈ l, ∃ c2, is_triple b t = some c2) :
    winnerAux b l = some c ↔
      ∃ pre t post, l = pre ++ t :: post ∧ is_triple b t = some c ∧
        ∀ t2 ∈ pre, is_triple b t2 = some EMPTY := by
  induction l with
  | nil =>
    simp only [winnerAux]
    constructor
    · intro h; exact absurd (Option.some_inj.1 h).symm hcne
    · rintro ⟨pre, t, post, habs, -⟩
      exact absurd habs (by simp)
  | cons t ts ih =>
    obtain ⟨c0, hc0⟩ := hl t (List.mem_cons_self t ts)
    have ihl : ∀ t2 ∈ ts, ∃ c2, is_triple b t2 = some c2 :=
      fun t2 h2 => hl t2 (List.mem_cons_of_mem _ h2)
    by_cases hce : c0 = EMPTY
    · subst hce
      simp only [winnerAux, hc0, Option.some_bind]
      rw [if_neg (by simp : ¬EMPTY ≠ EMPTY)]
      rw [ih ihl]
      constructor
      · rintro ⟨pre, t1, post, hdec, htrip, hpre⟩
        refine ⟨t :: pre, t1, post, by simp [hdec], htrip, ?_⟩
        intro t2 ht2
        rcases List.mem_cons.1 ht2 with h2 | h2
        · subst h2; exact hc0
        · exact hpre t2 h2
      · rintro ⟨pre, t1, post, hdec, htrip, hpre⟩
        cases pre with
        | nil =>
          simp only [List.nil_append] at hdec
          injection hdec with e1 e2
          subst e1
          rw [hc0] at htrip
          exact absurd (Option.some_inj.1 htrip).symm hcne
        | cons p0 pre2 =>
          simp only [List.cons_append] at hdec
          injection hdec with e1 e2
          exact ⟨pre2, t1, post, e2, htrip,
            fun t2 h2 => hpre t2 (List.mem_cons_of_mem _ h2)⟩
    · simp only [winnerAux, hc0, Option.some_bind]
      rw [if_pos hce]
      constructor
      · intro h
        have hc0c : c0 = c := Option.some_inj.1 h
        subst hc0c
        exact ⟨[], t, ts, rfl, hc0, by simp⟩
      · rintro ⟨pre, t1, post, hdec, htrip, hpre⟩
        cases pre with
        | nil =>
          simp only [List.nil_append] at hdec
          injection hdec with e1 e2
          subst e1
          rw [hc0] at htrip
          exact congrArg some (Option.some_inj.1 htrip)
        | cons p0 pre2 =>
          simp only [List.cons_append] at hdec
          injection hdec with e1 e2
          subst e1
          have := hpre t (List.mem_cons_self t pre2)
          rw [hc0] at this
          exact absurd (Option.some_inj.1 this) hce

theorem triples_all_some (b : Nat) : ∀ t ∈ triples, ∃ c, is_triple b t = some c := by
  intro t ht
  fin_cases ht <;> exact is_triple_some b _ _ _ []

/-- C8: `get_winner` returns `EMPTY` exactly when no triple of cells has
three equal non-empty top colors (covered same-color figures do not
count, since `is_triple` only reads top colors); it returns a non-empty
color `c` exactly when the first triple, in the fixed source order, whose
three top colors agree and are non-empty has color `c`; and a triple
matches a non-empty `c` exactly when all three of its cells have top
color `c`. -/
theorem c8_winner_characterization (b : Nat) :
    (get_winner b = some EMPTY ↔ ∀ t ∈ triples, is_triple b t = some EMPTY) ∧
    (∀ c, c ≠ EMPTY →
      (get_winner b = some c ↔
        ∃ pre t post, triples = pre ++ t :: post ∧ is_triple b t = some c ∧
          ∀ t2 ∈ pre, is_triple b t2 = some EMPTY)) ∧
    (∀ c p1 p2 p3, c ≠ EMPTY →
      (is_triple b [p1, p2, p3] = some c ↔
        get_top_color b p1 = some c ∧ get_top_color b p2 = some c ∧
          get_top_color b p3 = some c)) :=
  ⟨winnerAux_empty_iff b triples (triples_all_some b),
   fun _ hc => winnerAux_some_iff hc triples (triples_all_some b),
   fun _ p1 p2 p3 hc => is_triple_eq_iff p1 p2 p3 [] hc⟩

/-- Witness for C8: the initial board has no winner, and a board with
three large orange pieces on the top row is won by orange via the first
triple. -/
theorem c8_winner_characterization_witness :
    (∀ t ∈ triples, is_triple get_initial_board t = some EMPTY) ∧
    ∃ pre t post, triples = pre ++ t :: post ∧
      is_triple (set_board_square (set_board_square (set_board_square 0 1 16) 2 16) 3 16) t =
        some ORANGE ∧
      ∀ t2 ∈ pre, is_triple (set_board_square (set_board_square (set_board_square 0 1 16) 2 16) 3 16) t2 =
        some EMPTY :=
  ⟨(c8_winner_characterization get_initial_board).1.mp (by decide),
   ((c8_winner_characterization
      (set_board_square (set_board_square (set_board_square 0 1 16) 2 16) 3 16)).2.1 ORANGE
      (by decide)).mp (by decide)⟩

theorem get_board_player_lt4 {b : Nat} (hb : b < 2 ^ 56) : get_board_player b < 4 := by
  have h1 : b >>> 54 < 4 := by
    rw [Nat.shiftRight_eq_div_pow]
    exact Nat.div_lt_of_lt_mul (by calc b < 2 ^ 56 := hb
                                      _ = 2 ^ 54 * 4 := by norm_num)
  have h2 : b >>> 54 % 256 = b >>> 54 := Nat.mod_eq_of_lt (by omega)
  simpa [get_board_player, SQUARE_LENGTH, h2] using h1

theorem testBit_get_board_player (b : Nat) (j : Nat) :
    (get_board_player b).testBit j = (b.testBit (54 + j) && decide (j < 8)) := by
  simp only [get_board_player, SQUARE_LENGTH, show (6 : Nat) * 9 = 54 from rfl,
    show (256 : Nat) = 2 ^ 8 from by norm_num, Nat.testBit_mod_two_pow,
    Nat.testBit_shiftRight, Bool.and_comm]

theorem lt_two_pow_of_high_bits {x n : Nat} (h : ∀ i, n ≤ i → x.testBit i = false) :
    x < 2 ^ n := by
  by_contra hx
  obtain ⟨i, hge, hbit⟩ := Nat.ge_two_pow_implies_high_bit_true (Nat.not_lt.1 hx)
  rw [h i hge] at hbit
  exact Bool.false_ne_true hbit

theorem testBit_rotate_board {b : Nat} (hb : b < 2 ^ 56) (i : Nat) :
    (rotate_board b).testBit i =
      if i < 6 then b.testBit i
      else if i < 42 then b.testBit (i + 12)
      else if i < 54 then b.testBit (i - 36)
      else if i < 56 then b.testBit i
      else false := by
  have h63 : (63 : Nat) = 2 ^ 6 - 1 := by norm_num
  have hp4 := get_board_player_lt4 hb
  rw [rotate_board]
  simp only [SQUARE_MASK, SQUARE_LENGTH]
  rw [testBit_set_board_player _ hp4]
  by_cases hpl : 54 ≤ i ∧ i < 56
  · rw [if_pos hpl, testBit_get_board_player b]
    have he : 54 + (i - 54) = i := by omega
    have h8 : i - 54 < 8 := by omega
    simp [he, h8, show ¬i < 6 from by omega, show ¬i < 42 from by omega,
      show ¬i < 54 from by omega, show i < 56 from by omega]
  · rw [if_neg hpl]
    by_cases h64 : i < 64
    · simp only [Nat.testBit_or, Nat.testBit_and, Nat.testBit_shiftLeft,
        Nat.testBit_shiftRight, testBit_not64_lt h64, h63, Nat.testBit_two_pow_sub_one,
        ge_iff_le, h64, decide_True, Bool.and_true]
      by_cases r1 : i < 6
      · simp [r1, show ¬(6 : Nat) * 6 ≤ i from by omega, show ¬(6 : Nat) ≤ i from by omega]
      · by_cases r2 : i < 42
        · by_cases r36 : 6 * 6 ≤ i
          · simp [r1, r2, r36, show (6 : Nat) ≤ i from by omega,
              show ¬(6 : Nat) * 7 ≤ i from by omega,
              show ¬(6 : Nat) ≤ i - 6 * 6 from by omega,
              show ¬(6 : Nat) * 2 ≤ i - 6 * 6 from by omega,
              Nat.add_comm 12 i, show 6 * 2 + i = i + 12 from by omega]
          · simp [r1, r2, r36, show (6 : Nat) ≤ i from by omega,
              show ¬(6 : Nat) * 7 ≤ i from by omega,
              Nat.add_comm 12 i, show 6 * 2 + i = i + 12 from by omega]
        · by_cases r3 : i < 54
          · have r36 : 6 * 6 ≤ i := by omega
            by_cases r48 : i < 48
            · simp [r1, r2, r3, r36, r48, show (6 : Nat) ≤ i from by omega,
                show (6 : Nat) * 7 ≤ i from by omega, show i - 6 * 7 < 6 from by omega,
                show (6 : Nat) ≤ i - 6 * 6 from by omega, show i - 6 * 6 - 6 < 6 from by omega]
            · have hb1 : b.testBit (6 * 2 + i) = false := testBit_below hb (by omega)
              simp [r1, r2, r3, r36, hb1, show (6 : Nat) ≤ i from by omega,
                show (6 : Nat) * 2 ≤ i - 6 * 6 from by omega,
                show i - 6 * 6 - 6 * 2 < 6 from by omega,
                show (6 : Nat) ≤ i - 6 * 6 from by omega,
                show ¬(i - 6 * 6 - 6 < 6) from by omega]
          · have h56 : 56 ≤ i := by omega
            have hb1 : b.testBit (6 * 2 + i) = false := testBit_below hb (by omega)
            have hb2 : b.testBit i = false := testBit_below hb (by omega)
            simp [r1, r2, r3, hb1, hb2, show ¬i < 56 from by omega,
              show (6 : Nat) * 6 ≤ i from by omega,
              show ¬(i - 6 * 6 - 6 < 6) from by omega,
              show ¬(i - 6 * 6 - 6 * 2 < 6) from by omega]
    · have hge : 64 ≤ i := Nat.not_lt.1 h64
      simp [h64, show ¬i < 6 from by omega, show ¬i < 42 from by omega,
        show ¬i < 54 from by omega, show ¬i < 56 from by omega]

theorem rotate_board_lt {b : Nat} (hb : b < 2 ^ 56) : rotate_board b < 2 ^ 56 := by
  apply lt_two_pow_of_high_bits
  intro i hi
  rw [testBit_rotate_board hb i]
  simp [show ¬i < 6 from by omega, show ¬i < 42 from by omega,
    show ¬i < 54 from by omega, show ¬i < 56 from by omega]

theorem get_board_player_rotate {b : Nat} (hb : b < 2 ^ 56) :
    get_board_player (rotate_board b) = get_board_player b := by
  apply Nat.eq_of_testBit_eq
  intro j
  rw [testBit_get_board_player, testBit_get_board_player]
  by_cases hj : j < 2
  · rw [testBit_rotate_board hb (54 + j)]
    simp [show ¬54 + j < 6 from by omega, show ¬54 + j < 42 from by omega,
      show ¬54 + j < 54 from by omega, show 54 + j < 56 from by omega]
  · by_cases hj8 : j < 8
    · have h1 : (rotate_board b).testBit (54 + j) = false := by
        rw [testBit_rotate_board hb (54 + j)]
        simp [show ¬54 + j < 6 from by omega, show ¬54 + j < 42 from by omega,
          show ¬54 + j < 54 from by omega, show ¬54 + j < 56 from by omega]
      have h2 : b.testBit (54 + j) = false := testBit_below hb (by omega)
      simp [h1, h2]
    · simp [hj8]

theorem get_board_square_rotate {b : Nat} (hb : b < 2 ^ 56) {q : Nat} (hq : q < 9) :
    get_board_square (rotate_board b) q =
      get_board_square b (if q = 0 then 0 else if q ≤ 6 then q + 2 else q - 6) := by
  apply Nat.eq_of_testBit_eq
  intro j
  rw [testBit_get_board_square, testBit_get_board_square]
  by_cases hj : j < 6
  · rw [testBit_rotate_board hb (q * 6 + j)]
    by_cases hq0 : q = 0
    · subst hq0
      simp [show (0 : Nat) * 6 + j < 6 from by omega, hj]
    · by_cases hq6 : q ≤ 6
      · have c1 : ¬q * 6 + j < 6 := by omega
        have c2 : q * 6 + j < 42 := by omega
        have ce : q * 6 + j + 12 = (q + 2) * 6 + j := by ring
        simp [hq0, hq6, c1, c2, ce, hj]
      · have c1 : ¬q * 6 + j < 6 := by omega
        have c2 : ¬q * 6 + j < 42 := by omega
        have c3 : q * 6 + j < 54 := by omega
        have ce : q * 6 + j - 36 = (q - 6) * 6 + j := by
          have : 7 ≤ q := by omega
          have : q = 7 ∨ q = 8 := by omega
          rcases this with h | h <;> subst h <;> omega
        simp [hq0, hq6, c1, c2, c3, ce, hj]
  · simp [hj]

theorem board_ext {x y : Nat} (hx : x < 2 ^ 56) (hy : y < 2 ^ 56)
    (hsq : ∀ q, q < 9 → get_board_square x q = get_board_square y q)
    (hpl : get_board_player x = get_board_player y) : x = y := by
  apply Nat.eq_of_testBit_eq
  intro i
  by_cases h54 : i < 54
  · have hq : i / 6 < 9 := by omega
    have hj : i % 6 < 6 := Nat.mod_lt _ (by norm_num)
    have he : i / 6 * 6 + i % 6 = i := by omega
    have h1 := congrArg (fun s => s.testBit (i % 6)) (hsq (i / 6) hq)
    simp only [testBit_get_board_square, he, hj, decide_True, Bool.and_true] at h1
    exact h1
  · by_cases h56 : i < 56
    · have h1 := congrArg (fun s => s.testBit (i - 54)) hpl
      simp only [testBit_get_board_player] at h1
      have he : 54 + (i - 54) = i := by omega
      rw [he] at h1
      simpa [show i - 54 < 8 from by omega] using h1
    · rw [testBit_below hx (by omega), testBit_below hy (by omega)]

theorem rotate_board_four {b : Nat} (hb : b < 2 ^ 56) :
    rotate_board (rotate_board (rotate_board (rotate_board b))) = b := by
  have h1 : rotate_board b < 2 ^ 56 := rotate_board_lt hb
  have h2 : rotate_board (rotate_board b) < 2 ^ 56 := rotate_board_lt h1
  have h3 : rotate_board (rotate_board (rotate_board b)) < 2 ^ 56 := rotate_board_lt h2
  apply board_ext (rotate_board_lt h3) hb
  · intro q hq
    interval_cases q
    · rw [get_board_square_rotate h3 (show (0 : Nat) < 9 by norm_num)]
      norm_num
      rw [get_board_square_rotate h2 (show (0 : Nat) < 9 by norm_num)]
      norm_num
      rw [get_board_square_rotate h1 (show (0 : Nat) < 9 by norm_num)]
      norm_num
      rw [get_board_square_rotate hb (show (0 : Nat) < 9 by norm_num)]
      norm_num
    · rw [get_board_square_rotate h3 (show (1 : Nat) < 9 by norm_num)]
      norm_num
      rw [get_board_square_rotate h2 (show (3 : Nat) < 9 by norm_num)]
      norm_num
      rw [get_board_square_rotate h1 (show (5 : Nat) < 9 by norm_num)]
      norm_num
      rw [get_board_square_rotate hb (show (7 : Nat) < 9 by norm_num)]
      norm_num
    · rw [get_board_square_rotate h3 (show (2 : Nat) < 9 by norm_num)]
      norm_num
      rw [get_board_square_rotate h2 (show (4 : Nat) < 9 by norm_num)]
      norm_num
      rw [get_board_square_rotate h1 (show (6 : Nat) < 9 by norm_num)]
      norm_num
      rw [get_board_square_rotate hb (show (8 : Nat) < 9 by norm_num)]
      norm_num
    · rw [get_board_square_rotate h3 (show (3 : Nat) < 9 by norm_num)]
      norm_num
      rw [get_board_square_rotate h2 (show (5 : Nat) < 9 by norm_num)]
      norm_num
      rw [get_board_square_rotate h1 (show (7 : Nat) < 9 by norm_num)]
      norm_num
      rw [get_board_square_rotate hb (show (1 : Nat) < 9 by norm_num)]
      norm_num
    · rw [get_board_square_rotate h3 (show (4 : Nat) < 9 by norm_num)]
      norm_num
      rw [get_board_square_rotate h2 (show (6 : Nat) < 9 by norm_num)]
      norm_num
      rw [get_board_square_rotate h1 (show (8 : Nat) < 9 by norm_num)]
      norm_num
      rw [get_board_square_rotate hb (show (2 : Nat) < 9 by norm_num)]
      norm_num
    · rw [get_board_square_rotate h3 (show (5 : Nat) < 9 by norm_num)]
      norm_num
      rw [get_board_square_rotate h2 (show (7 : Nat) < 9 by norm_num)]
      norm_num
      rw [get_board_square_rotate h1 (show (1 : Nat) < 9 by norm_num)]
      norm_num
      rw [get_board_square_rotate hb (show (3 : Nat) < 9 by norm_num)]
      norm_num
    · rw [get_board_square_rotate h3 (show (6 : Nat) < 9 by norm_num)]
      norm_num
      rw [get_board_square_rotate h2 (show (8 : Nat) < 9 by norm_num)]
      norm_num
      rw [get_board_square_rotate h1 (show (2 : Nat) < 9 by norm_num)]
      norm_num
      rw [get_board_square_rotate hb (show (4 : Nat) < 9 by norm_num)]
      norm_num
    · rw [get_board_square_rotate h3 (show (7 : Nat) < 9 by norm_num)]
      norm_num
      rw [get_board_square_rotate h2 (show (1 : Nat) < 9 by norm_num)]
      norm_num
      rw [get_board_square_rotate h1 (show (3 : Nat) < 9 by norm_num)]
      norm_num
      rw [get_board_square_rotate hb (show (5 : Nat) < 9 by norm_num)]
      norm_num
    · rw [get_board_square_rotate h3 (show (8 : Nat) < 9 by norm_num)]
      norm_num
      rw [get_board_square_rotate h2 (show (2 : Nat) < 9 by norm_num)]
      norm_num
      rw [get_board_square_rotate h1 (show (4 : Nat) < 9 by norm_num)]
      norm_num
      rw [get_board_square_rotate hb (show (6 : Nat) < 9 by norm_num)]
      norm_num
  · rw [get_board_player_rotate h3, get_board_player_rotate h2, get_board_player_rotate h1,
      get_board_player_rotate hb]

theorem normalize_board_mem (b : Nat) :
    normalize_board b ∈ [b, rotate_board b, rotate_board (rotate_board b),
      rotate_board (rotate_board (rotate_board b))] := by
  unfold normalize_board
  dsimp only
  split_ifs <;> simp

theorem normalize_board_le (b : Nat) :
    ∀ x ∈ [b, rotate_board b, rotate_board (rotate_board b),
      rotate_board (rotate_board (rotate_board b))], normalize_board b ≤ x := by
  intro x hx
  simp only [List.mem_cons, List.mem_singleton, List.not_mem_nil, or_false] at hx
  rcases hx with h | h | h | h <;> subst h <;> (unfold normalize_board; dsimp only; split_ifs <;> omega)

theorem normalize_board_rotate {b : Nat} (hb : b < 2 ^ 56) :
    normalize_board (rotate_board b) = normalize_board b := by
  have h4 := rotate_board_four hb
  apply Nat.le_antisymm
  · have hmem := normalize_board_mem b
    simp only [List.mem_cons, List.mem_singleton, List.not_mem_nil, or_false] at hmem
    rcases hmem with h | h | h | h
    · rw [h]
      have hle := normalize_board_le (rotate_board b)
        (rotate_board (rotate_board (rotate_board (rotate_board b)))) (by simp)
      rw [h4] at hle
      exact hle
    · rw [h]
      exact normalize_board_le (rotate_board b) _ (by simp)
    · rw [h]
      exact normalize_board_le (rotate_board b) _ (by simp)
    · rw [h]
      exact normalize_board_le (rotate_board b) _ (by simp)
  · have hmem := normalize_board_mem (rotate_board b)
    simp only [List.mem_cons, List.mem_singleton, List.not_mem_nil, or_false] at hmem
    rcases hmem with h | h | h | h
    · rw [h]
      exact normalize_board_le b _ (by simp)
    · rw [h]
      exact normalize_board_le b _ (by simp)
    · rw [h]
      exact normalize_board_le b _ (by simp)
    · rw [h, h4]
      exact normalize_board_le b _ (by simp)

theorem normalize_board_idem {b : Nat} (hb : b < 2 ^ 56) :
    normalize_board (normalize_board b) = normalize_board b := by
  have hmem := normalize_board_mem b
  simp only [List.mem_cons, List.mem_singleton, List.not_mem_nil, or_false] at hmem
  rcases hmem with h | h | h | h
  · rw [h, h]
  · rw [h, normalize_board_rotate hb, h]
  · rw [h, normalize_board_rotate (rotate_board_lt hb), normalize_board_rotate hb, h]
  · rw [h, normalize_board_rotate (rotate_board_lt (rotate_board_lt hb)),
      normalize_board_rotate (rotate_board_lt hb), normalize_board_rotate hb, h]

theorem normalize_board_player {b : Nat} (hb : b < 2 ^ 56) :
    get_board_player (normalize_board b) = get_board_player b := by
  have hmem := normalize_board_mem b
  simp only [List.mem_cons, List.mem_singleton, List.not_mem_nil, or_false] at hmem
  rcases hmem with h | h | h | h <;> rw [h]
  · rw [get_board_player_rotate hb]
  · rw [get_board_player_rotate (rotate_board_lt hb), get_board_player_rotate hb]
  · rw [get_board_player_rotate (rotate_board_lt (rotate_board_lt hb)),
      get_board_player_rotate (rotate_board_lt hb), get_board_player_rotate hb]

theorem normalize_board_lt {b : Nat} (hb : b < 2 ^ 56) : normalize_board b < 2 ^ 56 := by
  have hmem := normalize_board_mem b
  simp only [List.mem_cons, List.mem_singleton, List.not_mem_nil, or_false] at hmem
  rcases hmem with h | h | h | h <;> rw [h]
  · exact hb
  · exact rotate_board_lt hb
  · exact rotate_board_lt (rotate_board_lt hb)
  · exact rotate_board_lt (rotate_board_lt (rotate_board_lt hb))

/-- C5: for a well-formed state (nine 6-bit squares, a 2-bit mover, no
higher bits) canonicalization is idempotent, invariant under rotation,
returns the numerically smallest of the four rotational encodings, and
preserves the mover field. -/
theorem c5_normalize (b : Nat) (hb : b < 2 ^ 56) :
    normalize_board (normalize_board b) = normalize_board b ∧
    normalize_board (rotate_board b) = normalize_board b ∧
    normalize_board b ∈ [b, rotate_board b, rotate_board (rotate_board b),
      rotate_board (rotate_board (rotate_board b))] ∧
    (∀ x ∈ [b, rotate_board b, rotate_board (rotate_board b),
      rotate_board (rotate_board (rotate_board b))], normalize_board b ≤ x) ∧
    get_board_player (normalize_board b) = get_board_player b :=
  ⟨normalize_board_idem hb, normalize_board_rotate hb, normalize_board_mem b,
   normalize_board_le b, normalize_board_player hb⟩

/-- Witness for C5 at the concrete initial board value. -/
theorem c5_normalize_witness :
    normalize_board (normalize_board 18181807895872528) = normalize_board 18181807895872528 ∧
    get_board_player (normalize_board 18181807895872528) =
      get_board_player 18181807895872528 :=
  ⟨(c5_normalize 18181807895872528 (by norm_num)).1,
   (c5_normalize 18181807895872528 (by norm_num)).2.2.2.2⟩

theorem move_targets_mem {bw figure size opponent pos : Nat} {targets : List Nat}
    {l : List Nat} (hl : move_targets bw figure size opponent pos targets = some l) :
    ∀ s ∈ l, ∃ target ∈ targets, target ≠ pos ∧
      can_play_at (get_board_square bw target) size = some true ∧
      s = set_board_player (normalize_board (set_board_square bw target
        ((get_board_square bw target + figure) % 256))) opponent := by
  induction targets generalizing l with
  | nil =>
    simp only [move_targets, Option.some_inj] at hl
    subst hl
    intro s hs
    exact absurd hs (List.not_mem_nil s)
  | cons t rest ih =>
    by_cases htp : t = pos
    · rw [move_targets, if_pos htp] at hl
      intro s hs
      obtain ⟨target, hmem, hrest⟩ := ih hl s hs
      exact ⟨target, List.mem_cons_of_mem _ hmem, hrest⟩
    · rw [move_targets, if_neg htp] at hl
      dsimp only at hl
      cases hok : can_play_at (get_board_square bw t) size with
      | none => rw [hok] at hl; exact absurd hl (by simp)
      | some ok =>
        rw [hok] at hl
        simp only [Option.some_bind] at hl
        cases htail : move_targets bw figure size opponent pos rest with
        | none => rw [htail] at hl; exact absurd hl (by simp)
        | some tail =>
          rw [htail] at hl
          simp only [Option.some_bind] at hl
          cases ok with
          | true =>
            rw [if_pos rfl] at hl
            have hl2 : set_board_player (normalize_board (set_board_square bw t
                ((get_board_square bw t + figure) % 256))) opponent :: tail = l :=
              Option.some_inj.1 hl
            intro s hs
            rw [← hl2] at hs
            rcases List.mem_cons.1 hs with h | h
            · exact ⟨t, List.mem_cons_self t rest, htp, hok, h⟩
            · obtain ⟨target, hmem, hrest⟩ := ih htail s h
              exact ⟨target, List.mem_cons_of_mem _ hmem, hrest⟩
          | false =>
            rw [if_neg (by simp)] at hl
            have hl2 : tail = l := Option.some_inj.1 hl
            subst hl2
            intro s hs
            obtain ⟨target, hmem, hrest⟩ := ih htail s hs
            exact ⟨target, List.mem_cons_of_mem _ hmem, hrest⟩

theorem add_moved_positions_mem {board playing opponent : Nat} {positions : List Nat}
    {l : List Nat} (hl : add_moved_positions board playing opponent positions = some l) :
    ∀ s ∈ l, ∃ pos ∈ positions, ∃ figure size bw target,
      target < 9 ∧ target ≠ pos ∧
      get_top_color board pos = some playing ∧
      get_top_figure (get_board_square board pos) = some figure ∧
      get_figure_size figure = some size ∧
      bw = set_board_square board pos ((get_board_square board pos + 256 - figure) % 256) ∧
      get_winner bw = some EMPTY ∧
      can_play_at (get_board_square bw target) size = some true ∧
      s = set_board_player (normalize_board (set_board_square bw target
        ((get_board_square bw target + figure) % 256))) opponent := by
  induction positions generalizing l with
  | nil =>
    simp only [add_moved_positions, Option.some_inj] at hl
    subst hl
    intro s hs
    exact absurd hs (List.not_mem_nil s)
  | cons pos rest ih =>
    rw [add_moved_positions] at hl
    dsimp only at hl
    cases hcol : get_top_color board pos with
    | none => rw [hcol] at hl; exact absurd hl (by simp)
    | some color =>
      rw [hcol] at hl
      simp only [Option.some_bind] at hl
      by_cases hcp : color ≠ playing
      · rw [if_pos hcp] at hl
        intro s hs
        obtain ⟨p, hmem, hrest⟩ := ih hl s hs
        exact ⟨p, List.mem_cons_of_mem _ hmem, hrest⟩
      · rw [if_neg hcp] at hl
        push_neg at hcp
        cases hfig : get_top_figure (get_board_square board pos) with
        | none => rw [hfig] at hl; exact absurd hl (by simp)
        | some figure =>
          rw [hfig] at hl
          simp only [Option.some_bind] at hl
          cases hsz : get_figure_size figure with
          | none => rw [hsz] at hl; exact absurd hl (by simp)
          | some size =>
            rw [hsz] at hl
            simp only [Option.some_bind] at hl
            cases hwin : get_winner (set_board_square board pos
                ((get_board_square board pos + 256 - figure) % 256)) with
            | none => rw [hwin] at hl; exact absurd hl (by simp)
            | some w =>
              rw [hwin] at hl
              simp only [Option.some_bind] at hl
              by_cases hwe : w ≠ EMPTY
              · rw [if_pos hwe] at hl
                intro s hs
                obtain ⟨p, hmem, hrest⟩ := ih hl s hs
                exact ⟨p, List.mem_cons_of_mem _ hmem, hrest⟩
              · rw [if_neg hwe] at hl
                push_neg at hwe
                subst hwe
                cases htg : move_targets (set_board_square board pos
                    ((get_board_square board pos + 256 - figure) % 256)) figure size opponent
                    pos (List.range 9) with
                | none => rw [htg] at hl; exact absurd hl (by simp)
                | some tl =>
                  rw [htg] at hl
                  simp only [Option.some_bind] at hl
                  cases hrest2 : add_moved_positions board playing opponent rest with
                  | none => rw [hrest2] at hl; exact absurd hl (by simp)
                  | some ls =>
                    rw [hrest2] at hl
                    simp only [Option.some_bind, Option.some_inj] at hl
                    subst hl
                    intro s hs
                    rcases List.mem_append.1 hs with h | h
                    · obtain ⟨target, htmem, htne, hcan, hseq⟩ := move_targets_mem htg s h
                      refine ⟨pos, List.mem_cons_self pos rest, figure, size, _, target,
                        List.mem_range.1 htmem, htne, hcp ▸ hcol, hfig, hsz, rfl, hwin, hcan,
                        hseq⟩
                    · obtain ⟨p, hmem, hrest3⟩ := ih hrest2 s h
                      exact ⟨p, List.mem_cons_of_mem _ hmem, hrest3⟩

/-- C7: every successor emitted by the relocation generator comes from a
source cell whose top figure is the mover's, whose removal leaves a board
with no winner (a removal that exposes a completed triple is skipped with
all its relocations), and lands on a different cell whose slot for that
figure's size is free. -/
theorem c7_moved_items_safe (board playing opponent : Nat) (l : List Nat)
    (hl : add_moved_items board playing opponent = some l) :
    ∀ s ∈ l, ∃ pos figure size bw target,
      pos < 9 ∧ target < 9 ∧ target ≠ pos ∧
      get_top_color board pos = some playing ∧
      get_top_figure (get_board_square board pos) = some figure ∧
      get_figure_size figure = some size ∧
      bw = set_board_square board pos ((get_board_square board pos + 256 - figure) % 256) ∧
      get_winner bw = some EMPTY ∧
      can_play_at (get_board_square bw target) size = some true ∧
      s = set_board_player (normalize_board (set_board_square bw target
        ((get_board_square bw target + figure) % 256))) opponent := by
  intro s hs
  obtain ⟨pos, hpmem, figure, size, bw, target, hrest⟩ := add_moved_positions_mem hl s hs
  exact ⟨pos, figure, size, bw, target, List.mem_range.1 hpmem, hrest⟩

/-- Witness for C7: a board with one orange large piece at the center,
orange to move; the first emitted relocation successor satisfies the
characterization. -/
theorem c7_moved_items_safe_witness :
    ∃ pos figure size bw target,
      pos < 9 ∧ target < 9 ∧ target ≠ pos ∧
      get_top_color 18014398509482000 pos = some 1 ∧
      get_top_figure (get_board_square 18014398509482000 pos) = some figure ∧
      get_figure_size figure = some size ∧
      bw = set_board_square 18014398509482000 pos
        ((get_board_square 18014398509482000 pos + 256 - figure) % 256) ∧
      get_winner bw = some EMPTY ∧
      can_play_at (get_board_square bw target) size = some true ∧
      36028797018964992 = set_board_player (normalize_board (set_board_square bw target
        ((get_board_square bw target + figure) % 256))) 2 :=
  c7_moved_items_safe 18014398509482000 1 2
    [36028797018964992, 36028797019029504, 36028797018964992, 36028797019029504,
     36028797018964992, 36028797019029504, 36028797018964992, 36028797019029504]
    (by decide) 36028797018964992 (by decide)

theorem vlookup_vinsert (v : Visited) (k k2 : Nat) (r : GraphRec) :
    vlookup (vinsert v k r) k2 = if k2 = k then some r else vlookup v k2 := by
  induction v with
  | nil =>
    by_cases h : k2 = k
    · subst h; simp [vinsert, vlookup]
    · simp [vinsert, vlookup, h, show ¬k = k2 from fun he => h he.symm]
  | cons row rest ih =>
    by_cases hrow : row.1 = k
    · by_cases h : k2 = k
      · subst h; simp [vinsert, vlookup, hrow]
      · simp [vinsert, vlookup, hrow, h, show ¬k = k2 from fun he => h he.symm]
    · by_cases h : k2 = k
      · subst h
        simp [vinsert, vlookup, hrow, ih]
      · by_cases h2 : row.1 = k2
        · simp [vinsert, vlookup, hrow, h2, h]
        · simp [vinsert, vlookup, hrow, h2, h, ih]

theorem modify_parents_cons_missing {key : Nat} {visited : Visited}
    (rest : List Nat) (flag : Bool) (hk : vlookup visited key = none) :
    modify_parents (key :: rest) flag visited = none := by
  rw [modify_parents, hk]

theorem modify_parents_cons_skip {key : Nat} {visited : Visited} {state : GraphRec}
    (rest : List Nat) (flag : Bool) (hk : vlookup visited key = some state)
    (hw : state.2.2 = -1) :
    modify_parents (key :: rest) flag visited = modify_parents rest flag visited := by
  rw [modify_parents, hk]
  dsimp only
  rw [if_pos hw]

theorem modify_parents_cons_active {key : Nat} {visited : Visited} {state : GraphRec}
    (rest : List Nat) (flag : Bool) (hk : vlookup visited key = some state)
    (hw : ¬state.2.2 = -1) :
    modify_parents (key :: rest) flag visited =
      (modify_parents rest flag (vinsert visited key
        (if flag then (state.1, state.2.1, -1)
         else (state.1, state.2.1, i8inc state.2.2)))).bind fun res =>
      some ((if (if flag then (state.1, state.2.1, (-1 : Int))
                 else (state.1, state.2.1, i8inc state.2.2)).2.2 = -1 ∨
               i8cast state.2.1 = (if flag then (state.1, state.2.1, (-1 : Int))
                 else (state.1, state.2.1, i8inc state.2.2)).2.2
             then state.1 else []) ++ res.1, res.2) := by
  rw [modify_parents, hk]
  dsimp only
  rw [if_neg hw]
  cases flag <;> rfl

theorem modify_parents_none_iff (parents : List Nat) (flag : Bool) (visited : Visited) :
    modify_parents parents flag visited = none ↔
      ∃ k ∈ parents, vlookup visited k = none := by
  induction parents generalizing visited with
  | nil => simp [modify_parents]
  | cons key rest ih =>
    cases hk : vlookup visited key with
    | none =>
      rw [modify_parents_cons_missing rest flag hk]
      constructor
      · intro _; exact ⟨key, List.mem_cons_self key rest, hk⟩
      · intro _; rfl
    | some state =>
      by_cases hw : state.2.2 = -1
      · rw [modify_parents_cons_skip rest flag hk hw, ih]
        constructor
        · rintro ⟨k, hmem, hnone⟩
          exact ⟨k, List.mem_cons_of_mem _ hmem, hnone⟩
        · rintro ⟨k, hmem, hnone⟩
          rcases List.mem_cons.1 hmem with h | h
          · subst h; rw [hk] at hnone; exact absurd hnone (by simp)
          · exact ⟨k, h, hnone⟩
      · rw [modify_parents_cons_active rest flag hk hw]
        constructor
        · intro h
          cases hrec : modify_parents rest flag (vinsert visited key
              (if flag then (state.1, state.2.1, -1)
               else (state.1, state.2.1, i8inc state.2.2))) with
          | none =>
            obtain ⟨k, hmem, hnone⟩ := (ih _).1 hrec
            rw [vlookup_vinsert] at hnone
            by_cases hkk : k = key
            · rw [if_pos hkk] at hnone; exact absurd hnone (by simp)
            · rw [if_neg hkk] at hnone
              exact ⟨k, List.mem_cons_of_mem _ hmem, hnone⟩
          | some res => rw [hrec] at h; exact absurd h (by simp)
        · rintro ⟨k, hmem, hnone⟩
          have hkk : k ≠ key := by
            intro he; subst he; rw [hk] at hnone; exact absurd hnone (by simp)
          have hmem2 : k ∈ rest := by
            rcases List.mem_cons.1 hmem with h | h
            · exact absurd h hkk
            · exact h
          have h2 : modify_parents rest flag (vinsert visited key
              (if flag then (state.1, state.2.1, -1)
               else (state.1, state.2.1, i8inc state.2.2))) = none := by
            rw [ih]
            refine ⟨k, hmem2, ?_⟩
            rw [vlookup_vinsert, if_neg hkk]
            exact hnone
          rw [h2]
          rfl

/-- C10: during outcome propagation a predecessor key with no graph
record makes `modify_parents` hit its `expect` (modeled as `none`), and
this happens exactly when some key of the wave has no record; in
particular propagation never silently skips a missing record (the
inserts performed by a wave never create records for new keys, so a
missing key is fatal no matter where it sits in the wave). -/
theorem c10_missing_record_panics (parents : List Nat) (flag : Bool) (visited : Visited) :
    modify_parents parents flag visited = none ↔
      ∃ k ∈ parents, vlookup visited k = none :=
  modify_parents_none_iff parents flag visited

/-- Witness for C10: a wave containing a key with no record panics. -/
theorem c10_missing_record_panics_witness :
    modify_parents [5] true [] = none :=
  (c10_missing_record_panics [5] true []).mpr ⟨5, List.mem_cons_self 5 [], rfl⟩

theorem modify_parents_preserves_win {k : Nat} {ps : List Nat} {c : Nat}
    {parents : List Nat} {flag : Bool} {visited : Visited} {res : List Nat × Visited}
    (hk : vlookup visited k = some (ps, c, -1))
    (hres : modify_parents parents flag visited = some res) :
    vlookup res.2 k = some (ps, c, -1) := by
  induction parents generalizing visited res with
  | nil =>
    rw [modify_parents] at hres
    have he : ([], visited) = res := Option.some_inj.1 hres
    rw [← he]
    exact hk
  | cons key rest ih =>
    cases hkey : vlookup visited key with
    | none => rw [modify_parents_cons_missing rest flag hkey] at hres; exact absurd hres (by simp)
    | some state =>
      by_cases hw : state.2.2 = -1
      · rw [modify_parents_cons_skip rest flag hkey hw] at hres
        exact ih hk hres
      · rw [modify_parents_cons_active rest flag hkey hw] at hres
        have hkk : key ≠ k := by
          intro he; subst he; rw [hkey] at hk
          have he2 : state = (ps, c, -1) := Option.some_inj.1 hk
          rw [he2] at hw
          exact hw rfl
        cases hrec : modify_parents rest flag (vinsert visited key
            (if flag then (state.1, state.2.1, -1)
             else (state.1, state.2.1, i8inc state.2.2))) with
        | none => rw [hrec] at hres; exact absurd hres (by simp)
        | some res2 =>
          rw [hrec] at hres
          simp only [Option.some_bind, Option.some_inj] at hres
          have hk2 : vlookup (vinsert visited key
              (if flag then (state.1, state.2.1, -1)
               else (state.1, state.2.1, i8inc state.2.2))) k = some (ps, c, -1) := by
            rw [vlookup_vinsert, if_neg (fun he => hkk he.symm)]
            exact hk
          have hfin := ih hk2 hrec
          rw [← hres]
          exact hfin

/-- C4: a record whose outcome has been set to `Win` (`-1`) is absorbing:
one propagation wave in either role, and likewise a whole cascade of
waves, leaves the record exactly as it is — its outcome is not changed,
its counter is not incremented, and its parents list is untouched. -/
theorem c4_win_absorbing (parents : List Nat) (flag : Bool) (visited : Visited)
    (k : Nat) (ps : List Nat) (c : Nat)
    (hk : vlookup visited k = some (ps, c, -1)) :
    (∀ res, modify_parents parents flag visited = some res →
      vlookup res.2 k = some (ps, c, -1)) ∧
    (∀ fuel v2, runCascade fuel parents flag visited = some v2 →
      vlookup v2 k = some (ps, c, -1)) := by
  refine ⟨fun res hres => modify_parents_preserves_win hk hres, ?_⟩
  intro fuel
  induction fuel generalizing parents flag visited with
  | zero =>
    intro v2 h2
    rw [runCascade] at h2
    rw [← Option.some_inj.1 h2]
    exact hk
  | succ n ih =>
    intro v2 h2
    cases parents with
    | nil =>
      rw [runCascade] at h2
      rw [← Option.some_inj.1 h2]
      exact hk
    | cons key rest =>
      rw [runCascade] at h2
      cases hrec : modify_parents (key :: rest) flag visited with
      | none => rw [hrec] at h2; exact absurd h2 (by simp)
      | some res =>
        rw [hrec] at h2
        simp only [Option.some_bind] at h2
        exact ih res.1 (!flag) res.2 (modify_parents_preserves_win hk hrec) v2 h2

/-- Witness for C4: a concrete map with a `Win` record, run through a
losing wave and a short cascade. -/
theorem c4_win_absorbing_witness :
    (∀ res, modify_parents [7, 1] false [(7, ([1, 2], 3, -1)), (1, ([7], 1, 0))] = some res →
      vlookup res.2 7 = some ([1, 2], 3, -1)) ∧
    (∀ fuel v2, runCascade fuel [7, 1] false [(7, ([1, 2], 3, -1)), (1, ([7], 1, 0))] = some v2 →
      vlookup v2 7 = some ([1, 2], 3, -1)) :=
  c4_win_absorbing [7, 1] false [(7, ([1, 2], 3, -1)), (1, ([7], 1, 0))] 7 [1, 2] 3 rfl

theorem get_board_square_lt (b p : Nat) : get_board_square b p < 64 := by
  have h := Nat.and_le_right (n := b >>> (p * SQUARE_LENGTH)) (m := 63)
  simp only [get_board_square, SQUARE_MASK]
  omega

theorem get_board_square_small {v : Nat} (hv : v < 64) : get_board_square v 0 = v := by
  have h64 : (63 : Nat) = 2 ^ 6 - 1 := by norm_num
  simp only [get_board_square, SQUARE_MASK, SQUARE_LENGTH, Nat.zero_mul, Nat.shiftRight_zero,
    h64, Nat.and_pow_two_sub_one_eq_mod]
  exact Nat.mod_eq_of_lt (by omega)

theorem get_top_color_of_square {b : Nat} (pos : Nat) :
    get_top_color b pos = get_top_color (get_board_square b pos) 0 :=
  get_top_color_congr (by rw [get_board_square_small (get_board_square_lt b pos)])

theorem placed_square_top (sq p size : Nat) (hsq : sq < 64) (hp : p = 1 ∨ p = 2)
    (hsize : size ∈ [SMALL, MEDIUM, LARGE])
    (hcan : can_play_at sq size = some true) :
    (sq + p * size % 256) % 256 < 64 ∧
      get_top_color ((sq + p * size % 256) % 256) 0 = some p := by
  fin_cases hsize
  · rcases hp with h | h <;> subst h <;>
      exact (by decide :
        ∀ s, s < 64 → can_play_at s SMALL = some true →
          (s + _ * SMALL % 256) % 256 < 64 ∧
            get_top_color ((s + _ * SMALL % 256) % 256) 0 = some _) sq hsq hcan
  · rcases hp with h | h <;> subst h <;>
      exact (by decide :
        ∀ s, s < 64 → can_play_at s MEDIUM = some true →
          (s + _ * MEDIUM % 256) % 256 < 64 ∧
            get_top_color ((s + _ * MEDIUM % 256) % 256) 0 = some _) sq hsq hcan
  · rcases hp with h | h <;> subst h <;>
      exact (by decide :
        ∀ s, s < 64 → can_play_at s LARGE = some true →
          (s + _ * LARGE % 256) % 256 < 64 ∧
            get_top_color ((s + _ * LARGE % 256) % 256) 0 = some _) sq hsq hcan

theorem remaining_subset (board : Nat) :
    ∀ size ∈ get_board_remaining board, size ∈ [SMALL, MEDIUM, LARGE] := by
  intro size hs
  unfold get_board_remaining at hs
  dsimp only at hs
  rcases List.mem_append.1 hs with h | h
  · rcases List.mem_append.1 h with h2 | h2
    · split at h2 <;> simp_all
    · split at h2 <;> simp_all
  · split at h <;> simp_all

theorem new_items_at_mem {board playing opponent size : Nat} {positions : List Nat}
    {l : List Nat} (hl : new_items_at board playing opponent size positions = some l) :
    ∀ s ∈ l, ∃ pos ∈ positions,
      can_play_at (get_board_square board pos) size = some true ∧
      s = set_board_player (normalize_board (set_board_square board pos
        ((get_board_square board pos + playing * size % 256) % 256))) opponent := by
  induction positions generalizing l with
  | nil =>
    simp only [new_items_at, Option.some_inj] at hl
    subst hl
    intro s hs
    exact absurd hs (List.not_mem_nil s)
  | cons pos rest ih =>
    rw [new_items_at] at hl
    dsimp only at hl
    cases hok : can_play_at (get_board_square board pos) size with
    | none => rw [hok] at hl; exact absurd hl (by simp)
    | some ok =>
      rw [hok] at hl
      simp only [Option.some_bind] at hl
      cases htail : new_items_at board playing opponent size rest with
      | none => rw [htail] at hl; exact absurd hl (by simp)
      | some tail =>
        rw [htail] at hl
        simp only [Option.some_bind] at hl
        cases ok with
        | true =>
          rw [if_pos rfl] at hl
          have hl2 := Option.some_inj.1 hl
          intro s hs
          rw [← hl2] at hs
          rcases List.mem_cons.1 hs with h | h
          · exact ⟨pos, List.mem_cons_self pos rest, hok, h⟩
          · obtain ⟨p, hmem, hrest⟩ := ih htail s h
            exact ⟨p, List.mem_cons_of_mem _ hmem, hrest⟩
        | false =>
          rw [if_neg (by simp)] at hl
          have hl2 := Option.some_inj.1 hl
          subst hl2
          intro s hs
          obtain ⟨p, hmem, hrest⟩ := ih htail s hs
          exact ⟨p, List.mem_cons_of_mem _ hmem, hrest⟩

theorem add_new_sizes_mem {board playing opponent : Nat} {sizes : List Nat}
    {l : List Nat} (hl : add_new_sizes board playing opponent sizes = some l) :
    ∀ s ∈ l, ∃ size ∈ sizes, ∃ pos, pos < 9 ∧
      can_play_at (get_board_square board pos) size = some true ∧
      s = set_board_player (normalize_board (set_board_square board pos
        ((get_board_square board pos + playing * size % 256) % 256))) opponent := by
  induction sizes generalizing l with
  | nil =>
    simp only [add_new_sizes, Option.some_inj] at hl
    subst hl
    intro s hs
    exact absurd hs (List.not_mem_nil s)
  | cons size rest ih =>
    rw [add_new_sizes] at hl
    cases hone : new_items_at board playing opponent size (List.range 9) with
    | none => rw [hone] at hl; exact absurd hl (by simp)
    | some l1 =>
      rw [hone] at hl
      simp only [Option.some_bind] at hl
      cases hrest : add_new_sizes board playing opponent rest with
      | none => rw [hrest] at hl; exact absurd hl (by simp)
      | some l2 =>
        rw [hrest] at hl
        simp only [Option.some_bind, Option.some_inj] at hl
        subst hl
        intro s hs
        rcases List.mem_append.1 hs with h | h
        · obtain ⟨pos, hpmem, hcan, hseq⟩ := new_items_at_mem hone s h
          exact ⟨size, List.mem_cons_self size rest, pos, List.mem_range.1 hpmem, hcan, hseq⟩
        · obtain ⟨sz, hmem, hrest2⟩ := ih hrest s h
          exact ⟨sz, List.mem_cons_of_mem _ hmem, hrest2⟩

theorem get_top_color_set_self {b pos v : Nat} (hpos : pos < 9) (hv : v < 64) :
    get_top_color (set_board_square b pos v) pos = get_top_color v 0 :=
  get_top_color_congr
    (by rw [get_set_board_square_self hpos hv, get_board_square_small hv])

theorem get_top_color_set_other {b pos v q : Nat} (hpos : pos < 9) (hq : q < 9)
    (hne : q ≠ pos) (hv : v < 64) :
    get_top_color (set_board_square b pos v) q = get_top_color b q :=
  get_top_color_congr (get_set_board_square_other hpos hq hne hv)

theorem get_top_color_set_player {b cpl q : Nat} (hq : q < 9) (hc : cpl < 4) :
    get_top_color (set_board_player b cpl) q = get_top_color b q :=
  get_top_color_congr (get_square_set_board_player hq hc)

theorem get_top_color_rotate {b : Nat} (hb : b < 2 ^ 56) {q : Nat} (hq : q < 9) :
    get_top_color (rotate_board b) q =
      get_top_color b (if q = 0 then 0 else if q ≤ 6 then q + 2 else q - 6) :=
  get_top_color_congr (get_board_square_rotate hb hq)

theorem is_triple_congr {x y p1 p2 p3 : Nat}
    (h1 : get_top_color x p1 = get_top_color y p1)
    (h2 : get_top_color x p2 = get_top_color y p2)
    (h3 : get_top_color x p3 = get_top_color y p3) :
    is_triple x [p1, p2, p3] = is_triple y [p1, p2, p3] := by
  simp only [is_triple, h1, h2, h3]

theorem winnerAux_congr {x y : Nat} {l : List (List Nat)}
    (h : ∀ t ∈ l, is_triple x t = is_triple y t) :
    winnerAux x l = winnerAux y l := by
  induction l with
  | nil => rfl
  | cons t ts ih =>
    rw [winnerAux, winnerAux, h t (List.mem_cons_self t ts),
      ih fun t2 h2 => h t2 (List.mem_cons_of_mem _ h2)]

theorem get_winner_set_player {x cpl : Nat} (hc : cpl < 4) :
    get_winner (set_board_player x cpl) = get_winner x := by
  unfold get_winner
  apply winnerAux_congr
  intro t ht
  fin_cases ht <;>
    exact is_triple_congr (get_top_color_set_player (by norm_num) hc)
      (get_top_color_set_player (by norm_num) hc)
      (get_top_color_set_player (by norm_num) hc)

theorem is_triple_rotate {x : Nat} (hx : x < 2 ^ 56) {c : Nat} (hc : c ≠ EMPTY)
    {p1 p2 p3 : Nat} (h1 : p1 < 9) (h2 : p2 < 9) (h3 : p3 < 9) :
    (is_triple (rotate_board x) [p1, p2, p3] = some c ↔
      is_triple x [if p1 = 0 then 0 else if p1 ≤ 6 then p1 + 2 else p1 - 6,
                   if p2 = 0 then 0 else if p2 ≤ 6 then p2 + 2 else p2 - 6,
                   if p3 = 0 then 0 else if p3 ≤ 6 then p3 + 2 else p3 - 6] = some c) := by
  rw [is_triple_eq_iff _ _ _ [] hc, is_triple_eq_iff _ _ _ [] hc,
    get_top_color_rotate hx h1, get_top_color_rotate hx h2, get_top_color_rotate hx h3]

theorem matches_rotate {x : Nat} (hx : x < 2 ^ 56) {c : Nat} (hc : c ≠ EMPTY) :
    (∃ t ∈ triples, is_triple (rotate_board x) t = some c) ↔
      ∃ t ∈ triples, is_triple x t = some c := by
  constructor
  · rintro ⟨t, ht, htrip⟩
    fin_cases ht
    · have h := (is_triple_rotate hx hc (by norm_num) (by norm_num) (by norm_num)).1 htrip
      norm_num at h
      exact ⟨[3, 4, 5], by decide, h⟩
    · have h := (is_triple_rotate hx hc (by norm_num) (by norm_num) (by norm_num)).1 htrip
      norm_num at h
      exact ⟨[2, 0, 6], by decide, h⟩
    · have h := (is_triple_rotate hx hc (by norm_num) (by norm_num) (by norm_num)).1 htrip
      norm_num at h
      exact ⟨[1, 8, 7], by decide, h⟩
    · have h := (is_triple_rotate hx hc (by norm_num) (by norm_num) (by norm_num)).1 htrip
      norm_num at h
      rw [is_triple_eq_iff _ _ _ [] hc] at h
      exact ⟨[1, 2, 3], by decide,
        (is_triple_eq_iff _ _ _ [] hc).mpr ⟨h.2.2, h.2.1, h.1⟩⟩
    · have h := (is_triple_rotate hx hc (by norm_num) (by norm_num) (by norm_num)).1 htrip
      norm_num at h
      rw [is_triple_eq_iff _ _ _ [] hc] at h
      exact ⟨[8, 0, 4], by decide,
        (is_triple_eq_iff _ _ _ [] hc).mpr ⟨h.2.2, h.2.1, h.1⟩⟩
    · have h := (is_triple_rotate hx hc (by norm_num) (by norm_num) (by norm_num)).1 htrip
      norm_num at h
      rw [is_triple_eq_iff _ _ _ [] hc] at h
      exact ⟨[7, 6, 5], by decide,
        (is_triple_eq_iff _ _ _ [] hc).mpr ⟨h.2.2, h.2.1, h.1⟩⟩
    · have h := (is_triple_rotate hx hc (by norm_num) (by norm_num) (by norm_num)).1 htrip
      norm_num at h
      exact ⟨[3, 0, 7], by decide, h⟩
    · have h := (is_triple_rotate hx hc (by norm_num) (by norm_num) (by norm_num)).1 htrip
      norm_num at h
      rw [is_triple_eq_iff _ _ _ [] hc] at h
      exact ⟨[1, 0, 5], by decide,
        (is_triple_eq_iff _ _ _ [] hc).mpr ⟨h.2.2, h.2.1, h.1⟩⟩
  · rintro ⟨t, ht, htrip⟩
    fin_cases ht
    · refine ⟨[1, 8, 7], by decide, ?_⟩
      rw [is_triple_rotate hx hc (by norm_num) (by norm_num) (by norm_num)]
      norm_num
      rw [is_triple_eq_iff _ _ _ [] hc] at htrip ⊢
      exact ⟨htrip.2.2, htrip.2.1, htrip.1⟩
    · refine ⟨[2, 0, 6], by decide, ?_⟩
      rw [is_triple_rotate hx hc (by norm_num) (by norm_num) (by norm_num)]
      norm_num
      rw [is_triple_eq_iff _ _ _ [] hc] at htrip ⊢
      exact ⟨htrip.2.2, htrip.2.1, htrip.1⟩
    · refine ⟨[3, 4, 5], by decide, ?_⟩
      rw [is_triple_rotate hx hc (by norm_num) (by norm_num) (by norm_num)]
      norm_num
      rw [is_triple_eq_iff _ _ _ [] hc] at htrip ⊢
      exact ⟨htrip.2.2, htrip.2.1, htrip.1⟩
    · refine ⟨[7, 6, 5], by decide, ?_⟩
      rw [is_triple_rotate hx hc (by norm_num) (by norm_num) (by norm_num)]
      norm_num
      exact htrip
    · refine ⟨[8, 0, 4], by decide, ?_⟩
      rw [is_triple_rotate hx hc (by norm_num) (by norm_num) (by norm_num)]
      norm_num
      exact htrip
    · refine ⟨[1, 2, 3], by decide, ?_⟩
      rw [is_triple_rotate hx hc (by norm_num) (by norm_num) (by norm_num)]
      norm_num
      exact htrip
    · refine ⟨[3, 0, 7], by decide, ?_⟩
      rw [is_triple_rotate hx hc (by norm_num) (by norm_num) (by norm_num)]
      norm_num
      rw [is_triple_eq_iff _ _ _ [] hc] at htrip ⊢
      exact ⟨htrip.2.2, htrip.2.1, htrip.1⟩
    · refine ⟨[1, 0, 5], by decide, ?_⟩
      rw [is_triple_rotate hx hc (by norm_num) (by norm_num) (by norm_num)]
      norm_num
      exact htrip

theorem matches_normalize {x : Nat} (hx : x < 2 ^ 56) {c : Nat} (hc : c ≠ EMPTY) :
    (∃ t ∈ triples, is_triple (normalize_board x) t = some c) ↔
      ∃ t ∈ triples, is_triple x t = some c := by
  have hmem := normalize_board_mem x
  simp only [List.mem_cons, List.mem_singleton, List.not_mem_nil, or_false] at hmem
  rcases hmem with h | h | h | h <;> rw [h]
  · rw [matches_rotate hx hc]
  · rw [matches_rotate (rotate_board_lt hx) hc, matches_rotate hx hc]
  · rw [matches_rotate (rotate_board_lt (rotate_board_lt hx)) hc,
      matches_rotate (rotate_board_lt hx) hc, matches_rotate hx hc]

theorem winner_matches {y c : Nat} (hc : c ≠ EMPTY) (hw : get_winner y = some c) :
    ∃ t ∈ triples, is_triple y t = some c := by
  obtain ⟨pre, t, post, hdec, htrip, -⟩ :=
    (winnerAux_some_iff hc triples (triples_all_some y)).1 hw
  exact ⟨t, by rw [hdec]; exact List.mem_append.2 (Or.inr (List.mem_cons_self t post)), htrip⟩

theorem set_board_square_lt {b p v : Nat} (hb : b < 2 ^ 56) (hp : p < 9) (hv : v < 64) :
    set_board_square b p v < 2 ^ 56 := by
  apply lt_two_pow_of_high_bits
  intro i hi
  rw [testBit_set_board_square b hp hv]
  have hout : ¬(p * 6 ≤ i ∧ i < p * 6 + 6) := by omega
  simp [hout, testBit_below hb hi]

theorem set_board_player_lt {b cpl : Nat} (hb : b < 2 ^ 56) (hc : cpl < 4) :
    set_board_player b cpl < 2 ^ 56 := by
  apply lt_two_pow_of_high_bits
  intro i hi
  rw [testBit_set_board_player b hc]
  have hout : ¬(54 ≤ i ∧ i < 56) := by omega
  simp [hout, testBit_below hb hi]

theorem triple_case {nb b pos newtop w p1 p2 p3 : Nat}
    (hp1 : p1 < 9) (hp2 : p2 < 9) (hp3 : p3 < 9)
    (hself : get_top_color nb pos = some newtop)
    (hother : ∀ q, q < 9 → q ≠ pos → get_top_color nb q = get_top_color b q)
    (hnw : ∀ t ∈ triples, is_triple b t = some EMPTY)
    (hwne : w ≠ EMPTY) (hmem : [p1, p2, p3] ∈ triples)
    (htrip : is_triple nb [p1, p2, p3] = some w) : w = newtop := by
  rw [is_triple_eq_iff _ _ _ [] hwne] at htrip
  obtain ⟨t1, t2, t3⟩ := htrip
  by_cases e1 : p1 = pos
  · rw [e1, hself] at t1
    exact (Option.some_inj.1 t1).symm
  · rw [hother p1 hp1 e1] at t1
    by_cases e2 : p2 = pos
    · rw [e2, hself] at t2
      exact (Option.some_inj.1 t2).symm
    · rw [hother p2 hp2 e2] at t2
      by_cases e3 : p3 = pos
      · rw [e3, hself] at t3
        exact (Option.some_inj.1 t3).symm
      · rw [hother p3 hp3 e3] at t3
        have hempty := hnw [p1, p2, p3] hmem
        rw [(is_triple_eq_iff p1 p2 p3 [] hwne).mpr ⟨t1, t2, t3⟩] at hempty
        exact absurd (Option.some_inj.1 hempty) hwne

theorem triple_top_analysis (b pos : Nat) {nb newtop : Nat}
    (hself : get_top_color nb pos = some newtop)
    (hother : ∀ q, q < 9 → q ≠ pos → get_top_color nb q = get_top_color b q)
    (hnw : ∀ t ∈ triples, is_triple b t = some EMPTY)
    {w : Nat} (hwne : w ≠ EMPTY)
    (hmatch : ∃ t ∈ triples, is_triple nb t = some w) : w = newtop := by
  obtain ⟨t, ht, htrip⟩ := hmatch
  fin_cases ht <;>
    exact triple_case (by norm_num) (by norm_num) (by norm_num) hself hother hnw hwne
      (by decide) htrip

theorem placed_successor_ok {b playing opponent pos : Nat} {newv : Nat}
    (hb : b < 2 ^ 56) (hpos : pos < 9) (hopp : opponent < 4)
    (hv : newv < 64)
    (htop : get_top_color newv 0 = some playing)
    (hnw : get_winner b = some EMPTY) :
    set_board_player (normalize_board (set_board_square b pos newv)) opponent < 2 ^ 56 ∧
    get_board_player (set_board_player (normalize_board (set_board_square b pos newv))
      opponent) = opponent ∧
    (∀ w, get_winner (set_board_player (normalize_board (set_board_square b pos newv))
      opponent) = some w → w ≠ EMPTY → w = playing) := by
  have hnb : set_board_square b pos newv < 2 ^ 56 := set_board_square_lt hb hpos hv
  have hnn : normalize_board (set_board_square b pos newv) < 2 ^ 56 := normalize_board_lt hnb
  refine ⟨set_board_player_lt hnn hopp, get_set_board_player hnn hopp, ?_⟩
  intro w hw hwne
  rw [get_winner_set_player hopp] at hw
  have hmatch := winner_matches hwne hw
  rw [matches_normalize hnb hwne] at hmatch
  refine triple_top_analysis b pos ?_ ?_ ?_ hwne hmatch
  · rw [get_top_color_set_self hpos hv]
    exact htop
  · intro q hq hne
    exact get_top_color_set_other hpos hq hne hv
  · exact (winnerAux_empty_iff b triples (triples_all_some b)).1 hnw

theorem source_square_facts1 :
    ∀ sq, sq < 64 → get_top_color sq 0 = some 1 →
      ((sq + 256 - (get_top_figure sq).getD 0) % 256 < 64 ∧
       ((get_top_figure sq).getD 0 = 1 * SMALL ∨ (get_top_figure sq).getD 0 = 1 * MEDIUM ∨
        (get_top_figure sq).getD 0 = 1 * LARGE)) := by
  decide

theorem source_square_facts2 :
    ∀ sq, sq < 64 → get_top_color sq 0 = some 2 →
      ((sq + 256 - (get_top_figure sq).getD 0) % 256 < 64 ∧
       ((get_top_figure sq).getD 0 = 2 * SMALL ∨ (get_top_figure sq).getD 0 = 2 * MEDIUM ∨
        (get_top_figure sq).getD 0 = 2 * LARGE)) := by
  decide

theorem figure_size_of_product :
    ∀ p, p < 3 → ∀ size2, size2 ∈ [SMALL, MEDIUM, LARGE] →
      p ≠ 0 → get_figure_size (p * size2) = some size2 := by
  decide

theorem product_mod (p size2 : Nat) (hp : p = 1 ∨ p = 2)
    (hs : size2 ∈ [SMALL, MEDIUM, LARGE]) : p * size2 % 256 = p * size2 := by
  rcases hp with h | h <;> subst h <;> fin_cases hs <;> rfl

theorem get_opponent_spec : ∀ p, (p = 1 ∨ p = 2) →
    get_opponent p = some (3 - p) ∧ (3 - p = 1 ∨ 3 - p = 2) ∧ 3 - p ≠ p := by
  intro p hp
  rcases hp with h | h <;> subst h <;> exact ⟨rfl, by norm_num, by norm_num⟩

theorem moved_successor_ok {board playing opponent pos figure size bw target : Nat}
    (hb : board < 2 ^ 56) (hpos : pos < 9) (htarget : target < 9)
    (hplay : playing = 1 ∨ playing = 2) (hopp : opponent < 4)
    (htopc : get_top_color board pos = some playing)
    (hfig : get_top_figure (get_board_square board pos) = some figure)
    (hsz : get_figure_size figure = some size)
    (hbw : bw = set_board_square board pos
      ((get_board_square board pos + 256 - figure) % 256))
    (hnw : get_winner bw = some EMPTY)
    (hcan : can_play_at (get_board_square bw target) size = some true) :
    set_board_player (normalize_board (set_board_square bw target
      ((get_board_square bw target + figure) % 256))) opponent < 2 ^ 56 ∧
    get_board_player (set_board_player (normalize_board (set_board_square bw target
      ((get_board_square bw target + figure) % 256))) opponent) = opponent ∧
    (∀ w, get_winner (set_board_player (normalize_board (set_board_square bw target
      ((get_board_square bw target + figure) % 256))) opponent) = some w →
      w ≠ EMPTY → w = playing) := by
  have hsq64 := get_board_square_lt board pos
  have htopsq : get_top_color (get_board_square board pos) 0 = some playing := by
    rw [← get_top_color_of_square pos]
    exact htopc
  have hgd : (get_top_figure (get_board_square board pos)).getD 0 = figure := by
    rw [hfig]
    rfl
  have hfacts : (get_board_square board pos + 256 -
      (get_top_figure (get_board_square board pos)).getD 0) % 256 < 64 ∧
      ((get_top_figure (get_board_square board pos)).getD 0 = playing * SMALL ∨
       (get_top_figure (get_board_square board pos)).getD 0 = playing * MEDIUM ∨
       (get_top_figure (get_board_square board pos)).getD 0 = playing * LARGE) := by
    rcases hplay with h | h <;> subst h
    · exact source_square_facts1 _ hsq64 htopsq
    · exact source_square_facts2 _ hsq64 htopsq
  rw [hgd] at hfacts
  have hbwlt : bw < 2 ^ 56 := by
    rw [hbw]
    exact set_board_square_lt hb hpos hfacts.1
  have hp3 : playing < 3 := by omega
  have hfsz : ∃ size2, size2 ∈ [SMALL, MEDIUM, LARGE] ∧ figure = playing * size2 := by
    rcases hfacts.2 with h | h | h
    · exact ⟨SMALL, by norm_num, h⟩
    · exact ⟨MEDIUM, by norm_num, h⟩
    · exact ⟨LARGE, by norm_num, h⟩
  obtain ⟨size2, hs2mem, hfeq⟩ := hfsz
  have hpne : playing ≠ 0 := by omega
  have hszeq : size = size2 := by
    have h1 := figure_size_of_product playing hp3 size2 hs2mem hpne
    rw [← hfeq] at h1
    rw [hsz] at h1
    exact (Option.some_inj.1 h1.symm).symm
  subst hszeq
  have hvform : (get_board_square bw target + figure) % 256 =
      (get_board_square bw target + playing * size % 256) % 256 := by
    rw [hfeq, product_mod playing size hplay hs2mem]
  obtain ⟨hvlt, hvtop⟩ := placed_square_top (get_board_square bw target) playing size
    (get_board_square_lt bw target) hplay hs2mem hcan
  rw [hvform]
  exact placed_successor_ok hbwlt htarget hopp hvlt hvtop hnw

theorem step_queueInv {fuel : Nat} {cfg cfg2 : Config} (hq : queueInv cfg)
    (hstep : step fuel cfg = some cfg2) : queueInv cfg2 := by
  unfold step at hstep
  cases hcq : cfg.queue with
  | nil =>
    rw [hcq] at hstep
    dsimp only at hstep
    rw [← Option.some_inj.1 hstep]
    exact hq
  | cons head rest =>
    obtain ⟨board, parent⟩ := head
    rw [hcq] at hstep
    dsimp only at hstep
    have hrest : ∀ e ∈ rest, entryOK e := by
      intro e he
      exact hq e (hcq ▸ List.mem_cons_of_mem _ he)
    obtain ⟨hbwf, hplay, hsafe⟩ := hq (board, parent) (hcq ▸ List.mem_cons_self _ _)
    dsimp only at hbwf hplay hsafe
    simp only [ORANGE, BLUE] at hplay
    obtain ⟨hoppeq, hoppin, hoppne⟩ := get_opponent_spec _ hplay
    rw [hoppeq] at hstep
    simp only [Option.some_bind] at hstep
    cases hlook : vlookup cfg.visited board with
    | some state =>
      rw [hlook] at hstep
      dsimp only at hstep
      rw [← Option.some_inj.1 hstep]
      exact hrest
    | none =>
      rw [hlook] at hstep
      dsimp only at hstep
      cases hwin : get_winner board with
      | none => rw [hwin] at hstep; exact absurd hstep (by simp)
      | some w =>
        rw [hwin] at hstep
        simp only [Option.some_bind] at hstep
        by_cases hwe : w ≠ EMPTY
        · rw [if_pos hwe] at hstep
          have hwp : ¬w = get_board_player board := hsafe w hwin hwe
          rw [if_neg hwp] at hstep
          cases hrc : runCascade fuel parent.toList true
              (vinsert cfg.visited board (parent.toList, 0, 0)) with
          | none => rw [hrc] at hstep; exact absurd hstep (by simp)
          | some v2 =>
            rw [hrc] at hstep
            simp only [Option.map_some'] at hstep
            rw [← Option.some_inj.1 hstep]
            exact hrest
        · rw [if_neg hwe] at hstep
          push_neg at hwe
          subst hwe
          cases hnew : add_new_items board (get_board_player board)
              (3 - get_board_player board) with
          | none => rw [hnew] at hstep; exact absurd hstep (by simp)
          | some new_items =>
            rw [hnew] at hstep
            simp only [Option.some_bind] at hstep
            cases hmoved : add_moved_items board (get_board_player board)
                (3 - get_board_player board) with
            | none => rw [hmoved] at hstep; exact absurd hstep (by simp)
            | some moved_items =>
              rw [hmoved] at hstep
              simp only [Option.some_bind, Option.some_inj] at hstep
              rw [← hstep]
              intro e he
              dsimp only at he
              rcases List.mem_append.1 he with h | h
              · exact hrest e h
              · obtain ⟨c, hc, hce⟩ := List.mem_map.1 h
                rw [← hce]
                have hopp4 : 3 - get_board_player board < 4 := by omega
                have hcok : c < 2 ^ 56 ∧
                    get_board_player c = 3 - get_board_player board ∧
                    (∀ w2, get_winner c = some w2 → w2 ≠ EMPTY →
                      w2 = get_board_player board) := by
                  rcases List.mem_append.1 hc with hcn | hcm
                  · rw [add_new_items] at hnew
                    obtain ⟨size, hsmem, pos, hpos, hcan, hseq⟩ :=
                      add_new_sizes_mem hnew c hcn
                    obtain ⟨hvlt, hvtop⟩ := placed_square_top (get_board_square board pos)
                      (get_board_player board) size (get_board_square_lt board pos) hplay
                      (remaining_subset board size hsmem) hcan
                    rw [hseq]
                    exact placed_successor_ok hbwf hpos hopp4 hvlt hvtop hwin
                  · rw [add_moved_items] at hmoved
                    obtain ⟨pos, figure, size, bw, target, hpos, htarget, htne, htopc, hfig,
                      hsz, hbweq, hnww, hcan, hseq⟩ :=
                      c7_moved_items_safe board (get_board_player board)
                        (3 - get_board_player board) moved_items hmoved c hcm
                    rw [hseq]
                    exact moved_successor_ok hbwf hpos htarget hplay hopp4 htopc hfig hsz
                      hbweq hnww hcan
                refine ⟨hcok.1, ?_, ?_⟩
                · show get_board_player c = ORANGE ∨ get_board_player c = BLUE
                  rw [hcok.2.1]
                  exact hoppin
                · intro w2 hw2 hw2ne
                  show w2 ≠ get_board_player c
                  rw [hcok.2.1, hcok.2.2 w2 hw2 hw2ne]
                  rcases hplay with h | h <;> omega

theorem stepN_queueInv {fuel n : Nat} {cfg cfg2 : Config} (hq : queueInv cfg)
    (hrun : stepN fuel n cfg = some cfg2) : queueInv cfg2 := by
  induction n generalizing cfg with
  | zero =>
    rw [stepN] at hrun
    rw [← Option.some_inj.1 hrun]
    exact hq
  | succ m ih =>
    rw [stepN] at hrun
    cases hstep : step fuel cfg with
    | none => rw [hstep] at hrun; exact absurd hrun (by simp)
    | some cfg1 =>
      rw [hstep] at hrun
      simp only [Option.some_bind] at hrun
      exact ih (step_queueInv hq hstep) hrun

/-- C6: every entry of the traversal queue, at any point of a run seeded
with the initial position, has a real color to move, and a non-empty
winner on its board is never the mover; in particular the board never
satisfies the condition of the `assert_ne!(winner, playing)` in `main`,
so the assertion can never fire on a dequeued state. -/
theorem c6_assert_safe (fuel n : Nat) (cfg : Config)
    (hrun : stepN fuel n initConfig = some cfg) :
    ∀ e ∈ cfg.queue,
      (get_board_player e.1 = ORANGE ∨ get_board_player e.1 = BLUE) ∧
      (∀ w, get_winner e.1 = some w → w ≠ EMPTY → w ≠ get_board_player e.1) ∧
      get_winner e.1 ≠ some (get_board_player e.1) := by
  have hq0 : queueInv initConfig := by
    intro e he
    have he2 : e = (get_initial_board, none) := by
      simpa [initConfig] using he
    subst he2
    refine ⟨by decide, by decide, ?_⟩
    intro w hw hwne
    have hwin : get_winner get_initial_board = some EMPTY := by decide
    rw [hwin] at hw
    exact absurd (Option.some_inj.1 hw).symm hwne
  have hq := stepN_queueInv hq0 hrun
  intro e he
  obtain ⟨hwf, hplay, hsafe⟩ := hq e he
  refine ⟨hplay, hsafe, ?_⟩
  intro habs
  have hpl0 : get_board_player e.1 ≠ EMPTY := by
    rcases hplay with h | h <;> rw [h] <;> decide
  exact hsafe (get_board_player e.1) habs hpl0 rfl

/-- Witness for C6 at the seeded configuration itself. -/
theorem c6_assert_safe_witness :
    (get_board_player get_initial_board = ORANGE ∨
      get_board_player get_initial_board = BLUE) ∧
    get_winner get_initial_board ≠ some (get_board_player get_initial_board) := by
  have h := c6_assert_safe 1 0 initConfig rfl (get_initial_board, none)
    (List.mem_cons_self _ _)
  exact ⟨h.1, h.2.2⟩

/-! Bookkeeping toolkit for the outcome-counter invariant (C3). -/

theorem vlookup_mem {v : Visited} {k : Nat} {r : GraphRec}
    (h : vlookup v k = some r) : (k, r) ∈ v := by
  induction v with
  | nil => simp [vlookup] at h
  | cons row rest ih =>
    rw [vlookup] at h
    by_cases hk : row.1 = k
    · rw [if_pos hk] at h
      have : row = (k, r) := by
        cases row
        simp_all
      rw [← this]
      exact List.mem_cons_self _ _
    · rw [if_neg hk] at h
      exact List.mem_cons_of_mem _ (ih h)

theorem mem_vlookup_isSome {v : Visited} {row : Nat × GraphRec}
    (h : row ∈ v) : ∃ r2, vlookup v row.1 = some r2 := by
  induction v with
  | nil => simp at h
  | cons row0 rest ih =>
    rcases List.mem_cons.1 h with he | hm
    · subst he
      exact ⟨row.2, by simp [vlookup]⟩
    · by_cases hk : row0.1 = row.1
      · exact ⟨row0.2, by simp [vlookup, hk]⟩
      · obtain ⟨r2, hr2⟩ := ih hm
        exact ⟨r2, by simp [vlookup, hk, hr2]⟩

theorem vlookup_none_not_mem {v : Visited} {k : Nat}
    (h : vlookup v k = none) : k ∉ v.map Prod.fst := by
  induction v with
  | nil => simp
  | cons row rest ih =>
    rw [vlookup] at h
    by_cases hk : row.1 = k
    · rw [if_pos hk] at h; cases h
    · rw [if_neg hk] at h
      simp only [List.map_cons, List.mem_cons]
      rintro (he | hm)
      · exact hk he.symm
      · exact ih h hm

theorem vinsert_keys_some {v : Visited} {k : Nat} {r0 : GraphRec}
    (h : vlookup v k = some r0) (r : GraphRec) :
    (vinsert v k r).map Prod.fst = v.map Prod.fst := by
  induction v with
  | nil => simp [vlookup] at h
  | cons row rest ih =>
    rw [vlookup] at h
    by_cases hk : row.1 = k
    · rw [vinsert, if_pos hk]
      simp [hk]
    · rw [vinsert, if_neg hk]
      rw [if_neg hk] at h
      simp [ih h]

theorem vinsert_keys_none {v : Visited} {k : Nat}
    (h : vlookup v k = none) (r : GraphRec) :
    (vinsert v k r).map Prod.fst = v.map Prod.fst ++ [k] := by
  induction v with
  | nil => simp [vinsert]
  | cons row rest ih =>
    rw [vlookup] at h
    by_cases hk : row.1 = k
    · rw [if_pos hk] at h; cases h
    · rw [if_neg hk] at h
      rw [vinsert, if_neg hk]
      simp [ih h]

theorem mem_vinsert_some {v : Visited} {k : Nat} {r0 r : GraphRec}
    (hd : (v.map Prod.fst).Nodup) (h : vlookup v k = some r0) :
    ∀ row ∈ vinsert v k r, row = (k, r) ∨ (row ∈ v ∧ row.1 ≠ k) := by
  induction v with
  | nil => simp [vlookup] at h
  | cons row0 rest ih =>
    rw [vlookup] at h
    simp only [List.map_cons, List.nodup_cons] at hd
    by_cases hk : row0.1 = k
    · rw [vinsert, if_pos hk]
      intro row hrow
      rcases List.mem_cons.1 hrow with he | hm
      · exact Or.inl he
      · right
        refine ⟨List.mem_cons_of_mem _ hm, ?_⟩
        intro hcontra
        exact hd.1 (hk ▸ hcontra ▸ List.mem_map_of_mem Prod.fst hm)
    · rw [if_neg hk] at h
      rw [vinsert, if_neg hk]
      intro row hrow
      rcases List.mem_cons.1 hrow with he | hm
      · subst he
        exact Or.inr ⟨List.mem_cons_self _ _, hk⟩
      · rcases ih hd.2 h row hm with h1 | h1
        · exact Or.inl h1
        · exact Or.inr ⟨List.mem_cons_of_mem _ h1.1, h1.2⟩

theorem mem_vinsert_none {v : Visited} {k : Nat} {r : GraphRec}
    (h : vlookup v k = none) :
    ∀ row ∈ vinsert v k r, row = (k, r) ∨ row ∈ v := by
  induction v with
  | nil =>
    intro row hrow
    rw [vinsert] at hrow
    exact Or.inl (List.mem_singleton.1 hrow)
  | cons row0 rest ih =>
    rw [vlookup] at h
    by_cases hk : row0.1 = k
    · rw [if_pos hk] at h; cases h
    · rw [if_neg hk] at h
      rw [vinsert, if_neg hk]
      intro row hrow
      rcases List.mem_cons.1 hrow with he | hm
      · exact Or.inr (he ▸ List.mem_cons_self _ _)
      · rcases ih h row hm with h1 | h1
        · exact Or.inl h1
        · exact Or.inr (List.mem_cons_of_mem _ h1)

theorem pendV_nil (p : Nat) : pendV [] p = 0 := rfl

theorem pendV_cons (row : Nat × GraphRec) (v : Visited) (p : Nat) :
    pendV (row :: v) p = recContrib p row.2 + pendV v p := by
  simp [pendV]

theorem pendV_vinsert_some {v : Visited} {k : Nat} {r0 : GraphRec}
    (h : vlookup v k = some r0) (r : GraphRec) (p : Nat) :
    pendV (vinsert v k r) p + recContrib p r0 = pendV v p + recContrib p r := by
  induction v with
  | nil => simp [vlookup] at h
  | cons row rest ih =>
    rw [vlookup] at h
    by_cases hk : row.1 = k
    · rw [if_pos hk] at h
      rw [vinsert, if_pos hk]
      have hr0 : r0 = row.2 := by injection h with h2; exact h2.symm
      subst hr0
      rw [pendV_cons, pendV_cons]
      dsimp only
      omega
    · rw [if_neg hk] at h
      rw [vinsert, if_neg hk, pendV_cons, pendV_cons]
      have := ih h
      omega

theorem pendV_vinsert_none {v : Visited} {k : Nat}
    (h : vlookup v k = none) (r : GraphRec) (p : Nat) :
    pendV (vinsert v k r) p = pendV v p + recContrib p r := by
  induction v with
  | nil =>
    rw [vinsert, pendV_cons, pendV_nil]
    simp
  | cons row rest ih =>
    rw [vlookup] at h
    by_cases hk : row.1 = k
    · rw [if_pos hk] at h; cases h
    · rw [if_neg hk] at h
      rw [vinsert, if_neg hk, pendV_cons, pendV_cons, ih h]
      omega

theorem recContrib_le_pendV {v : Visited} {k : Nat} {r : GraphRec}
    (h : vlookup v k = some r) (p : Nat) :
    recContrib p r ≤ pendV v p := by
  induction v with
  | nil => simp [vlookup] at h
  | cons row rest ih =>
    rw [vlookup] at h
    rw [pendV_cons]
    by_cases hk : row.1 = k
    · rw [if_pos hk] at h
      have hr : row.2 = r := by injection h
      rw [← hr]
      omega
    · rw [if_neg hk] at h
      have := ih h
      omega

theorem pendV_eq_zero {v : Visited} {p : Nat}
    (h : ∀ row ∈ v, recContrib p row.2 = 0) : pendV v p = 0 := by
  induction v with
  | nil => rfl
  | cons row rest ih =>
    rw [pendV_cons, ih fun row2 hm => h row2 (List.mem_cons_of_mem _ hm),
      h row (List.mem_cons_self _ _)]

theorem pendQ_nil (p : Nat) : pendQ [] p = 0 := rfl

theorem pendQ_cons (e : Nat × Option Nat) (q : List (Nat × Option Nat)) (p : Nat) :
    pendQ (e :: q) p = (if e.2 = some p then 1 else 0) + pendQ q p := by
  by_cases h : e.2 = some p
  · simp [pendQ, List.filter_cons, h]
    omega
  · simp [pendQ, List.filter_cons, h]

theorem pendQ_append (q1 q2 : List (Nat × Option Nat)) (p : Nat) :
    pendQ (q1 ++ q2) p = pendQ q1 p + pendQ q2 p := by
  simp [pendQ, List.filter_append]

theorem pendQ_eq_zero {q : List (Nat × Option Nat)} {p : Nat}
    (h : ∀ e ∈ q, e.2 ≠ some p) : pendQ q p = 0 := by
  induction q with
  | nil => rfl
  | cons e rest ih =>
    rw [pendQ_cons, if_neg (h e (List.mem_cons_self _ _)),
      ih fun e2 hm => h e2 (List.mem_cons_of_mem _ hm)]

theorem pendQ_map_children (children : List Nat) (X p : Nat) :
    pendQ (children.map fun c => (c, some X)) p =
      if X = p then children.length else 0 := by
  induction children with
  | nil => by_cases h : X = p <;> simp [pendQ_nil, h]
  | cons c cs ih =>
    rw [List.map_cons, pendQ_cons, ih]
    by_cases h : X = p
    · simp [h, List.length_cons]
      omega
    · simp only [h, if_false]
      rw [if_neg]
      simp [h]

theorem memOK_vinsert {v : Visited} {p : Nat} (k : Nat) (r : GraphRec)
    (h : memOK v p) : memOK (vinsert v k r) p := by
  obtain ⟨⟨rec, hrec⟩, hw⟩ := h
  refine ⟨?_, hw⟩
  rw [vlookup_vinsert]
  by_cases hk : p = k
  · exact ⟨r, if_pos hk⟩
  · exact ⟨rec, by rw [if_neg hk]; exact hrec⟩

theorem clauseW_trivial (v : Visited) : clauseW v [] [] false :=
  ⟨fun h => absurd h (by decide), fun _ p hp => absurd hp (List.not_mem_nil p)⟩

theorem MIrow_mono_inc {v : Visited} {q : List (Nat × Option Nat)}
    {L N L2 N2 : List Nat} {r r2 : Bool} {row : Nat × GraphRec}
    (h : MIrow v q L N r row)
    (hc : incCnt L2 N2 r2 row.1 ≤ incCnt L N r row.1) : MIrow v q L2 N2 r2 row := by
  rcases h with h | h
  · exact Or.inl h
  · exact Or.inr ⟨h.1, by omega, h.2.2⟩

theorem new_items_at_length {board playing opponent size : Nat} :
    ∀ (positions l : List Nat),
    new_items_at board playing opponent size positions = some l →
    l.length ≤ positions.length := by
  intro positions
  induction positions with
  | nil =>
    intro l h
    rw [new_items_at] at h
    injection h with h
    simp [← h]
  | cons pos rest ih =>
    intro l h
    rw [new_items_at] at h
    dsimp only at h
    cases hok : can_play_at (get_board_square board pos) size with
    | none => rw [hok] at h; simp at h
    | some ok =>
      rw [hok, Option.some_bind] at h
      cases htail : new_items_at board playing opponent size rest with
      | none => rw [htail] at h; simp at h
      | some tail =>
        rw [htail, Option.some_bind] at h
        have htl := ih tail htail
        cases ok with
        | false =>
          rw [if_neg (by decide)] at h
          injection h with h
          rw [← h, List.length_cons]
          omega
        | true =>
          rw [if_pos rfl] at h
          injection h with h
          rw [← h, List.length_cons, List.length_cons]
          omega

theorem add_new_sizes_length {board playing opponent : Nat} :
    ∀ (sizes l : List Nat),
    add_new_sizes board playing opponent sizes = some l →
    l.length ≤ 9 * sizes.length := by
  intro sizes
  induction sizes with
  | nil =>
    intro l h
    rw [add_new_sizes] at h
    injection h with h
    simp [← h]
  | cons size rest ih =>
    intro l h
    rw [add_new_sizes] at h
    cases hl : new_items_at board playing opponent size (List.range 9) with
    | none => rw [hl] at h; simp at h
    | some l1 =>
      rw [hl, Option.some_bind] at h
      cases hls : add_new_sizes board playing opponent rest with
      | none => rw [hls] at h; simp at h
      | some ls =>
        rw [hls, Option.some_bind] at h
        injection h with h
        have h1 := new_items_at_length (List.range 9) l1 hl
        have h2 := ih ls hls
        rw [← h, List.length_append, List.length_cons]
        rw [List.length_range] at h1
        omega

theorem get_board_remaining_length (board : Nat) :
    (get_board_remaining board).length ≤ 3 := by
  rw [get_board_remaining]
  dsimp only
  split_ifs <;> simp

theorem add_new_items_length {board playing opponent : Nat} {l : List Nat}
    (h : add_new_items board playing opponent = some l) : l.length ≤ 27 := by
  have h1 := add_new_sizes_length (get_board_remaining board) l h
  have h2 := get_board_remaining_length board
  omega

theorem move_targets_length {bw f sz opp pos : Nat} :
    ∀ (targets l : List Nat), move_targets bw f sz opp pos targets = some l →
    l.length ≤ targets.length := by
  intro targets
  induction targets with
  | nil =>
    intro l h
    rw [move_targets] at h
    injection h with h
    simp [← h]
  | cons t rest ih =>
    intro l h
    rw [move_targets] at h
    by_cases ht : t = pos
    · rw [if_pos ht] at h
      have := ih l h
      rw [List.length_cons]
      omega
    · rw [if_neg ht] at h
      dsimp only at h
      cases hok : can_play_at (get_board_square bw t) sz with
      | none => rw [hok] at h; simp at h
      | some ok =>
        rw [hok, Option.some_bind] at h
        cases htail : move_targets bw f sz opp pos rest with
        | none => rw [htail] at h; simp at h
        | some tail =>
          rw [htail, Option.some_bind] at h
          have htl := ih tail htail
          cases ok with
          | false =>
            rw [if_neg (by decide)] at h
            injection h with h
            rw [← h, List.length_cons]
            omega
          | true =>
            rw [if_pos rfl] at h
            injection h with h
            rw [← h, List.length_cons, List.length_cons]
            omega

theorem add_moved_positions_length {board playing opponent : Nat} :
    ∀ (positions l : List Nat),
    add_moved_positions board playing opponent positions = some l →
    l.length ≤ 9 * positions.length := by
  intro positions
  induction positions with
  | nil =>
    intro l h
    rw [add_moved_positions] at h
    injection h with h
    simp [← h]
  | cons pos rest ih =>
    intro l h
    rw [add_moved_positions] at h
    cases hc : get_top_color board pos with
    | none => rw [hc] at h; simp at h
    | some color =>
      rw [hc, Option.some_bind] at h
      by_cases hcp : color ≠ playing
      · rw [if_pos hcp] at h
        have := ih l h
        rw [List.length_cons]
        omega
      · rw [if_neg hcp] at h
        dsimp only at h
        cases hf : get_top_figure (get_board_square board pos) with
        | none => rw [hf] at h; simp at h
        | some figure =>
          rw [hf, Option.some_bind] at h
          cases hs : get_figure_size figure with
          | none => rw [hs] at h; simp at h
          | some sz =>
            rw [hs, Option.some_bind] at h
            cases hw : get_winner (set_board_square board pos
                ((get_board_square board pos + 256 - figure) % 256)) with
            | none => rw [hw] at h; simp at h
            | some w =>
              rw [hw, Option.some_bind] at h
              by_cases hwe : w ≠ EMPTY
              · rw [if_pos hwe] at h
                have := ih l h
                rw [List.length_cons]
                omega
              · rw [if_neg hwe] at h
                cases hmt : move_targets (set_board_square board pos
                    ((get_board_square board pos + 256 - figure) % 256))
                    figure sz opponent pos (List.range 9) with
                | none => rw [hmt] at h; simp at h
                | some mt =>
                  rw [hmt, Option.some_bind] at h
                  cases hls : add_moved_positions board playing opponent rest with
                  | none => rw [hls] at h; simp at h
                  | some ls =>
                    rw [hls, Option.some_bind] at h
                    injection h with h
                    have h1 := move_targets_length (List.range 9) mt hmt
                    have h2 := ih ls hls
                    rw [← h, List.length_append, List.length_cons]
                    rw [List.length_range] at h1
                    omega

theorem add_moved_items_length {board playing opponent : Nat} {l : List Nat}
    (h : add_moved_items board playing opponent = some l) : l.length ≤ 81 := by
  have h1 := add_moved_positions_length (List.range 9) l h
  rw [List.length_range] at h1
  omega

theorem count_cons_le (a b : Nat) (l : List Nat) : l.count a ≤ (b :: l).count a := by
  by_cases h : b = a
  · rw [h, List.count_cons_self]
    omega
  · rw [List.count_cons_of_ne fun he => h he.symm]

theorem modify_parents_cons_active_true {key : Nat} {visited : Visited} {state : GraphRec}
    (rest : List Nat) (hk : vlookup visited key = some state)
    (hw : ¬state.2.2 = -1) :
    modify_parents (key :: rest) true visited =
      (modify_parents rest true (vinsert visited key (state.1, state.2.1, -1))).bind fun res =>
      some (state.1 ++ res.1, res.2) := by
  rw [modify_parents, hk]
  dsimp only
  rw [if_neg hw]
  rfl

theorem modify_parents_cons_active_false {key : Nat} {visited : Visited} {state : GraphRec}
    (rest : List Nat) (hk : vlookup visited key = some state)
    (hw : ¬state.2.2 = -1) :
    modify_parents (key :: rest) false visited =
      (modify_parents rest false
        (vinsert visited key (state.1, state.2.1, i8inc state.2.2))).bind fun res =>
      some ((if i8inc state.2.2 = -1 ∨ i8cast state.2.1 = i8inc state.2.2
             then state.1 else []) ++ res.1, res.2) := by
  rw [modify_parents, hk]
  dsimp only
  rw [if_neg hw]
  rfl

theorem modify_parents_MIC_true {q : List (Nat × Option Nat)} :
    ∀ (L : List Nat) (v : Visited) (Nacc N2 : List Nat) (v2 : Visited),
    MIC v q L Nacc true → modify_parents L true v = some (N2, v2) →
    MIC v2 q [] (Nacc ++ N2) true ∧
    (∀ (P : Nat) (ps : List Nat) (c : Nat), vlookup v P = some (ps, c, (c : Int)) →
      vlookup v2 P = some (ps, c, (c : Int))) := by
  intro L
  induction L with
  | nil =>
    intro v Nacc N2 v2 hMIC hrun
    rw [modify_parents] at hrun
    simp only [Option.some.injEq, Prod.mk.injEq] at hrun
    obtain ⟨h1, h2⟩ := hrun
    subst h1
    subst h2
    exact ⟨by rw [List.append_nil]; exact hMIC, fun P ps c hP => hP⟩
  | cons key rest ih =>
    intro v Nacc N2 v2 hMIC hrun
    obtain ⟨hrows, hcl, hSq, hSv, hSL, hSN, hSd⟩ := hMIC
    obtain ⟨⟨state0, hlook⟩, hwinkey⟩ := hSL key (List.mem_cons_self _ _)
    by_cases hskip : state0.2.2 = -1
    · rw [modify_parents_cons_skip rest true hlook hskip] at hrun
      have hnext : MIC v q rest Nacc true :=
        ⟨fun row hrow => MIrow_mono_inc (hrows row hrow) (le_refl _),
          ⟨fun _ p hp => hcl.1 rfl p (List.mem_cons_of_mem _ hp), fun h => nomatch h⟩,
          hSq, hSv, fun p hp => hSL p (List.mem_cons_of_mem _ hp), hSN, hSd⟩
      exact ih v Nacc N2 v2 hnext hrun
    · rw [modify_parents_cons_active_true rest hlook hskip] at hrun
      cases hrec : modify_parents rest true (vinsert v key (state0.1, state0.2.1, -1)) with
      | none => rw [hrec] at hrun; simp at hrun
      | some res =>
        rw [hrec, Option.some_bind] at hrun
        simp only [Option.some.injEq, Prod.mk.injEq] at hrun
        obtain ⟨hN2, hv2⟩ := hrun
        subst hv2
        have hnext : MIC (vinsert v key (state0.1, state0.2.1, -1)) q rest
            (Nacc ++ state0.1) true := by
          refine ⟨?_, ⟨?_, fun h => nomatch h⟩, ?_, ?_, ?_, ?_, ?_⟩
          · intro row hrow
            rcases mem_vinsert_some hSd hlook row hrow with he | ⟨hmem, hne⟩
            · subst he
              exact Or.inl rfl
            · rcases hrows row hmem with hw1 | ⟨h1, h2, h3⟩
              · exact Or.inl hw1
              · right
                refine ⟨h1, ?_, h3⟩
                have hpeq := pendV_vinsert_some hlook (state0.1, state0.2.1, -1) row.1
                have hco : recContrib row.1 state0 = state0.1.count row.1 := by
                  rw [recContrib, if_neg hskip]
                have hcn : recContrib row.1 (state0.1, state0.2.1, (-1 : Int)) = 0 := by
                  rw [recContrib, if_pos rfl]
                rw [hco, hcn] at hpeq
                rw [pend] at h2 ⊢
                have hicold : incCnt (key :: rest) Nacc true row.1 = Nacc.count row.1 := rfl
                have hicnew : incCnt rest (Nacc ++ state0.1) true row.1
                    = Nacc.count row.1 + state0.1.count row.1 := by
                  show (Nacc ++ state0.1).count row.1 = _
                  rw [List.count_append]
                rw [hicold] at h2
                rw [hicnew]
                omega
          · intro _ p hp
            have hwOK := hcl.1 rfl p (List.mem_cons_of_mem _ hp)
            intro rec hrec2
            rw [vlookup_vinsert] at hrec2
            by_cases hpk : p = key
            · rw [if_pos hpk] at hrec2
              injection hrec2 with he
              rw [← he]
              exact Or.inl rfl
            · rw [if_neg hpk] at hrec2
              exact hwOK rec hrec2
          · intro e he pp hpp
            exact memOK_vinsert _ _ (hSq e he pp hpp)
          · intro row hrow pp hpp
            rcases mem_vinsert_some hSd hlook row hrow with he | ⟨hmem, _⟩
            · subst he
              exact memOK_vinsert _ _ (hSv (key, state0) (vlookup_mem hlook) pp hpp)
            · exact memOK_vinsert _ _ (hSv row hmem pp hpp)
          · intro p hp
            exact memOK_vinsert _ _ (hSL p (List.mem_cons_of_mem _ hp))
          · intro p hp
            rcases List.mem_append.1 hp with h1 | h1
            · exact memOK_vinsert _ _ (hSN p h1)
            · exact memOK_vinsert _ _ (hSv (key, state0) (vlookup_mem hlook) p h1)
          · rw [vinsert_keys_some hlook]
            exact hSd
        obtain ⟨hfin, hfr⟩ := ih _ _ _ _ hnext hrec
        constructor
        · rw [← hN2, ← List.append_assoc]
          exact hfin
        · intro P ps c hP
          by_cases hPk : P = key
          · exfalso
            subst hPk
            rw [hlook] at hP
            injection hP with he
            rcases hcl.1 rfl P (List.mem_cons_self _ _) state0 hlook with hx | hx <;>
              rw [he] at hx <;> dsimp only at hx <;> omega
          · refine hfr P ps c ?_
            rw [vlookup_vinsert, if_neg hPk]
            exact hP

theorem modify_parents_MIC_false {q : List (Nat × Option Nat)} :
    ∀ (L : List Nat) (v : Visited) (Nacc N2 : List Nat) (v2 : Visited),
    MIC v q L Nacc false → modify_parents L false v = some (N2, v2) →
    MIC v2 q [] (Nacc ++ N2) false ∧
    (∀ (P : Nat) (ps : List Nat) (c : Nat), vlookup v P = some (ps, c, (c : Int)) →
      vlookup v2 P = some (ps, c, (c : Int))) := by
  intro L
  induction L with
  | nil =>
    intro v Nacc N2 v2 hMIC hrun
    rw [modify_parents] at hrun
    simp only [Option.some.injEq, Prod.mk.injEq] at hrun
    obtain ⟨h1, h2⟩ := hrun
    subst h1
    subst h2
    exact ⟨by rw [List.append_nil]; exact hMIC, fun P ps c hP => hP⟩
  | cons key rest ih =>
    intro v Nacc N2 v2 hMIC hrun
    obtain ⟨hrows, hcl, hSq, hSv, hSL, hSN, hSd⟩ := hMIC
    obtain ⟨⟨state0, hlook⟩, hwinkey⟩ := hSL key (List.mem_cons_self _ _)
    by_cases hskip : state0.2.2 = -1
    · rw [modify_parents_cons_skip rest false hlook hskip] at hrun
      have hnext : MIC v q rest Nacc false := by
        refine ⟨fun row hrow => MIrow_mono_inc (hrows row hrow) (count_cons_le _ _ _),
          ⟨fun h => (nomatch h), ?_⟩,
          hSq, hSv, fun p hp => hSL p (List.mem_cons_of_mem _ hp), hSN, hSd⟩
        intro _ p hp rec hr
        rcases hcl.2 rfl p hp rec hr with hx | hx
        · exact Or.inl hx
        · right
          have hcc := count_cons_le p key rest
          omega
      exact ih v Nacc N2 v2 hnext hrun
    · rcases hrows (key, state0) (vlookup_mem hlook) with hx | ⟨ho0, hle0, hc0⟩
      · exact absurd hx hskip
      dsimp only at ho0 hle0 hc0
      have hle : state0.2.2.toNat + pend v q key + (rest.count key + 1) ≤ state0.2.1 := by
        have h := hle0
        rw [show incCnt (key :: rest) Nacc false key = (key :: rest).count key from rfl,
          List.count_cons_self] at h
        omega
      have hinc : i8inc state0.2.2 = state0.2.2 + 1 := by
        rw [i8inc, if_neg]
        intro h
        rw [h] at hle
        omega
      have hcast : i8cast state0.2.1 = (state0.2.1 : Int) := by
        rw [i8cast, if_pos (by omega)]
      rw [modify_parents_cons_active_false rest hlook hskip, hinc, hcast] at hrun
      have hpeqgen : ∀ p : Nat,
          pendV (vinsert v key (state0.1, state0.2.1, state0.2.2 + 1)) p = pendV v p := by
        intro p
        have hpeq := pendV_vinsert_some hlook (state0.1, state0.2.1, state0.2.2 + 1) p
        rw [recContrib, if_neg hskip] at hpeq
        rw [show recContrib p (state0.1, state0.2.1, state0.2.2 + 1)
            = state0.1.count p from by
              rw [recContrib, if_neg (by dsimp only; omega)]] at hpeq
        omega
      by_cases hloss : (state0.2.1 : Int) = state0.2.2 + 1
      · rw [if_pos (Or.inr hloss)] at hrun
        have hzero : pendQ q key = 0 ∧ pendV v key = 0 ∧ rest.count key = 0 := by
          rw [pend] at hle
          omega
        cases hrec : modify_parents rest false
            (vinsert v key (state0.1, state0.2.1, state0.2.2 + 1)) with
        | none => rw [hrec] at hrun; simp at hrun
        | some res =>
          rw [hrec, Option.some_bind] at hrun
          simp only [Option.some.injEq, Prod.mk.injEq] at hrun
          obtain ⟨hN2, hv2⟩ := hrun
          subst hv2
          have hnext : MIC (vinsert v key (state0.1, state0.2.1, state0.2.2 + 1)) q rest
              (Nacc ++ state0.1) false := by
            refine ⟨?_, ⟨fun h => (nomatch h), ?_⟩, ?_, ?_, ?_, ?_, ?_⟩
            · intro row hrow
              rcases mem_vinsert_some hSd hlook row hrow with he | ⟨hmem, hne⟩
              · subst he
                right
                refine ⟨by dsimp only; omega, ?_, hc0⟩
                rw [pend, hpeqgen]
                dsimp only
                rw [show incCnt rest (Nacc ++ state0.1) false key = rest.count key from rfl]
                omega
              · rcases hrows row hmem with hw1 | ⟨h1, h2, h3⟩
                · exact Or.inl hw1
                · right
                  refine ⟨h1, ?_, h3⟩
                  rw [pend, hpeqgen]
                  rw [pend] at h2
                  have hcc := count_cons_le row.1 key rest
                  rw [show incCnt (key :: rest) Nacc false row.1
                      = (key :: rest).count row.1 from rfl] at h2
                  rw [show incCnt rest (Nacc ++ state0.1) false row.1
                      = rest.count row.1 from rfl]
                  omega
            · intro _ p hp rec hrec2
              rw [vlookup_vinsert] at hrec2
              rcases List.mem_append.1 hp with h1 | h1
              · by_cases hpk : p = key
                · exfalso
                  subst hpk
                  rcases hcl.2 rfl p h1 state0 hlook with hy | hy
                  · exact hskip hy
                  · rw [List.count_cons_self] at hy
                    omega
                · rw [if_neg hpk] at hrec2
                  rcases hcl.2 rfl p h1 rec hrec2 with hy | hy
                  · exact Or.inl hy
                  · right
                    have hcc := count_cons_le p key rest
                    omega
              · have hcnt := recContrib_le_pendV hlook p
                rw [recContrib, if_neg hskip] at hcnt
                have hppos : 0 < state0.1.count p := List.count_pos_iff.2 h1
                by_cases hpk : p = key
                · exfalso
                  subst hpk
                  omega
                · rw [if_neg hpk] at hrec2
                  rcases hrows (p, rec) (vlookup_mem hrec2) with hy | ⟨hy1, hy2, hy3⟩
                  · exact Or.inl hy
                  · right
                    rw [pend] at hy2
                    have hcc := count_cons_le p key rest
                    rw [show incCnt (key :: rest) Nacc false p
                        = (key :: rest).count p from rfl] at hy2
                    dsimp only at hy1 hy2
                    omega
            · intro e he pp hpp
              exact memOK_vinsert _ _ (hSq e he pp hpp)
            · intro row hrow pp hpp
              rcases mem_vinsert_some hSd hlook row hrow with he | ⟨hmem, _⟩
              · subst he
                exact memOK_vinsert _ _ (hSv (key, state0) (vlookup_mem hlook) pp hpp)
              · exact memOK_vinsert _ _ (hSv row hmem pp hpp)
            · intro p hp
              exact memOK_vinsert _ _ (hSL p (List.mem_cons_of_mem _ hp))
            · intro p hp
              rcases List.mem_append.1 hp with h1 | h1
              · exact memOK_vinsert _ _ (hSN p h1)
              · exact memOK_vinsert _ _ (hSv (key, state0) (vlookup_mem hlook) p h1)
            · rw [vinsert_keys_some hlook]
              exact hSd
          obtain ⟨hfin, hfr⟩ := ih _ _ _ _ hnext hrec
          constructor
          · rw [← hN2, ← List.append_assoc]
            exact hfin
          · intro P ps c hP
            by_cases hPk : P = key
            · exfalso
              subst hPk
              rw [hlook] at hP
              injection hP with he
              rw [he] at hloss
              dsimp only at hloss
              omega
            · refine hfr P ps c ?_
              rw [vlookup_vinsert, if_neg hPk]
              exact hP
      · have hcond : ¬(state0.2.2 + 1 = -1 ∨ (state0.2.1 : Int) = state0.2.2 + 1) := by
          rintro (h | h)
          · omega
          · exact hloss h
        rw [if_neg hcond] at hrun
        cases hrec : modify_parents rest false
            (vinsert v key (state0.1, state0.2.1, state0.2.2 + 1)) with
        | none => rw [hrec] at hrun; simp at hrun
        | some res =>
          rw [hrec, Option.some_bind] at hrun
          simp only [List.nil_append, Option.some.injEq, Prod.mk.injEq] at hrun
          obtain ⟨hN2, hv2⟩ := hrun
          subst hv2
          have hnext : MIC (vinsert v key (state0.1, state0.2.1, state0.2.2 + 1)) q rest
              Nacc false := by
            refine ⟨?_, ⟨fun h => (nomatch h), ?_⟩, ?_, ?_, ?_, ?_, ?_⟩
            · intro row hrow
              rcases mem_vinsert_some hSd hlook row hrow with he | ⟨hmem, hne⟩
              · subst he
                right
                refine ⟨by dsimp only; omega, ?_, hc0⟩
                rw [pend, hpeqgen]
                dsimp only
                rw [show incCnt rest Nacc false key = rest.count key from rfl]
                rw [pend] at hle
                omega
              · rcases hrows row hmem with hw1 | ⟨h1, h2, h3⟩
                · exact Or.inl hw1
                · right
                  refine ⟨h1, ?_, h3⟩
                  rw [pend, hpeqgen]
                  rw [pend] at h2
                  have hcc := count_cons_le row.1 key rest
                  rw [show incCnt (key :: rest) Nacc false row.1
                      = (key :: rest).count row.1 from rfl] at h2
                  rw [show incCnt rest Nacc false row.1 = rest.count row.1 from rfl]
                  omega
            · intro _ p hp rec hrec2
              rw [vlookup_vinsert] at hrec2
              by_cases hpk : p = key
              · rw [if_pos hpk] at hrec2
                injection hrec2 with he
                subst hpk
                rcases hcl.2 rfl p hp state0 hlook with hy | hy
                · exact absurd hy hskip
                · right
                  rw [← he]
                  dsimp only
                  rw [List.count_cons_self] at hy
                  omega
              · rw [if_neg hpk] at hrec2
                rcases hcl.2 rfl p hp rec hrec2 with hy | hy
                · exact Or.inl hy
                · right
                  have hcc := count_cons_le p key rest
                  omega
            · intro e he pp hpp
              exact memOK_vinsert _ _ (hSq e he pp hpp)
            · intro row hrow pp hpp
              rcases mem_vinsert_some hSd hlook row hrow with he | ⟨hmem, _⟩
              · subst he
                exact memOK_vinsert _ _ (hSv (key, state0) (vlookup_mem hlook) pp hpp)
              · exact memOK_vinsert _ _ (hSv row hmem pp hpp)
            · intro p hp
              exact memOK_vinsert _ _ (hSL p (List.mem_cons_of_mem _ hp))
            · intro p hp
              exact memOK_vinsert _ _ (hSN p hp)
            · rw [vinsert_keys_some hlook]
              exact hSd
          obtain ⟨hfin, hfr⟩ := ih _ _ _ _ hnext hrec
          constructor
          · rw [← hN2]
            exact hfin
          · intro P ps c hP
            by_cases hPk : P = key
            · exfalso
              subst hPk
              rw [hlook] at hP
              injection hP with he
              rw [he] at hle
              dsimp only at hle
              omega
            · refine hfr P ps c ?_
              rw [vlookup_vinsert, if_neg hPk]
              exact hP

theorem MIC_flip {v : Visited} {q : List (Nat × Option Nat)} {N : List Nat} {r : Bool}
    (h : MIC v q [] N r) : MIC v q N [] (!r) := by
  obtain ⟨hrows, hcl, hSq, hSv, hSL, hSN, hSd⟩ := h
  cases r
  · refine ⟨?_, ⟨?_, fun h2 => (nomatch h2)⟩, hSq, hSv, hSN,
      fun p hp => absurd hp (List.not_mem_nil p), hSd⟩
    · intro row hrow
      exact MIrow_mono_inc (hrows row hrow) (le_refl _)
    · intro _ p hp rec hrec
      rcases hcl.2 rfl p hp rec hrec with hx | hx
      · exact Or.inl hx
      · right
        rw [List.count_nil] at hx
        omega
  · refine ⟨?_, ⟨fun h2 => (nomatch h2), fun _ p hp => absurd hp (List.not_mem_nil p)⟩,
      hSq, hSv, hSN, fun p hp => absurd hp (List.not_mem_nil p), hSd⟩
    intro row hrow
    exact MIrow_mono_inc (hrows row hrow) (le_refl _)

theorem MIC_drop {v : Visited} {q : List (Nat × Option Nat)} {L N : List Nat} {r : Bool}
    (h : MIC v q L N r) : MIC v q [] [] false := by
  obtain ⟨hrows, hcl, hSq, hSv, hSL, hSN, hSd⟩ := h
  refine ⟨?_, clauseW_trivial v, hSq, hSv, fun p hp => absurd hp (List.not_mem_nil p),
    fun p hp => absurd hp (List.not_mem_nil p), hSd⟩
  intro row hrow
  exact MIrow_mono_inc (hrows row hrow) (Nat.zero_le _)

theorem runCascade_MIC {q : List (Nat × Option Nat)} :
    ∀ (fuel : Nat) (L : List Nat) (r : Bool) (v v2 : Visited),
    MIC v q L [] r → runCascade fuel L r v = some v2 →
    MIC v2 q [] [] false ∧
    (∀ (P : Nat) (ps : List Nat) (c : Nat), vlookup v P = some (ps, c, (c : Int)) →
      vlookup v2 P = some (ps, c, (c : Int))) := by
  intro fuel
  induction fuel with
  | zero =>
    intro L r v v2 hMIC hrun
    rw [runCascade] at hrun
    injection hrun with h
    subst h
    exact ⟨MIC_drop hMIC, fun P ps c hP => hP⟩
  | succ fuel ih =>
    intro L r v v2 hMIC hrun
    cases L with
    | nil =>
      rw [runCascade] at hrun
      injection hrun with h
      subst h
      exact ⟨MIC_drop hMIC, fun P ps c hP => hP⟩
    | cons key rest =>
      rw [runCascade] at hrun
      cases hmp : modify_parents (key :: rest) r v with
      | none => rw [hmp] at hrun; simp at hrun
      | some res =>
        rw [hmp, Option.some_bind] at hrun
        cases r
        · obtain ⟨hmic2, hfr1⟩ :=
            modify_parents_MIC_false (key :: rest) v [] res.1 res.2 hMIC hmp
          rw [List.nil_append] at hmic2
          obtain ⟨hfin, hfr2⟩ := ih res.1 (!false) res.2 v2 (MIC_flip hmic2) hrun
          exact ⟨hfin, fun P ps c hP => hfr2 P ps c (hfr1 P ps c hP)⟩
        · obtain ⟨hmic2, hfr1⟩ :=
            modify_parents_MIC_true (key :: rest) v [] res.1 res.2 hMIC hmp
          rw [List.nil_append] at hmic2
          obtain ⟨hfin, hfr2⟩ := ih res.1 (!true) res.2 v2 (MIC_flip hmic2) hrun
          exact ⟨hfin, fun P ps c hP => hfr2 P ps c (hfr1 P ps c hP)⟩

theorem incCnt_nil_nil (r : Bool) (p : Nat) : incCnt [] [] r p = 0 := by
  cases r <;> rfl

theorem incCnt_true (L N : List Nat) (p : Nat) : incCnt L N true p = N.count p := rfl

theorem count_toList (parent : Option Nat) (p : Nat) :
    parent.toList.count p = if parent = some p then 1 else 0 := by
  cases parent with
  | none => simp
  | some pv =>
    by_cases hp : pv = p
    · subst hp
      rw [if_pos rfl]
      show List.count pv [pv] = 1
      rw [List.count_cons_self, List.count_nil]
    · rw [if_neg (by intro hc; injection hc with hc2; exact hp hc2)]
      show List.count p [pv] = 0
      rw [List.count_cons_of_ne (fun he => hp he.symm), List.count_nil]

theorem mem_toList_eq {parent : Option Nat} {p : Nat}
    (h : p ∈ parent.toList) : parent = some p := by
  cases parent with
  | none => simp at h
  | some pv =>
    have : p ∈ [pv] := h
    rw [List.mem_singleton.1 this]

theorem step_MI {fuel : Nat} {cfg cfg2 : Config} (h : MI cfg)
    (hstep : step fuel cfg = some cfg2) :
    MI cfg2 ∧
    (∀ (P : Nat) (ps : List Nat) (c : Nat),
      vlookup cfg.visited P = some (ps, c, (c : Int)) →
      ∃ ps2, vlookup cfg2.visited P = some (ps2, c, (c : Int))) := by
  obtain ⟨hrows, hcl, hSq, hSv, hSL, hSN, hSd⟩ := h
  unfold step at hstep
  cases hcq : cfg.queue with
  | nil =>
    rw [hcq] at hstep
    dsimp only at hstep
    rw [← Option.some_inj.1 hstep]
    exact ⟨⟨hrows, hcl, hSq, hSv, hSL, hSN, hSd⟩, fun P ps c hP => ⟨ps, hP⟩⟩
  | cons head rest =>
    obtain ⟨board, parent⟩ := head
    rw [hcq] at hstep hrows hSq
    dsimp only at hstep
    have hparmem : ∀ pp ∈ parent.toList, memOK cfg.visited pp := by
      intro pp hpp
      refine hSq (board, parent) (List.mem_cons_self _ _) pp ?_
      show parent = some pp
      exact mem_toList_eq hpp
    have hrest : ∀ e ∈ rest, ∀ pp : Nat, e.2 = some pp → memOK cfg.visited pp :=
      fun e he => hSq e (List.mem_cons_of_mem _ he)
    cases hopp : get_opponent (get_board_player board) with
    | none => rw [hopp] at hstep; simp at hstep
    | some opponent =>
      rw [hopp] at hstep
      simp only [Option.some_bind] at hstep
      cases hlook : vlookup cfg.visited board with
      | some state =>
        rw [hlook] at hstep
        dsimp only at hstep
        rw [← Option.some_inj.1 hstep]
        dsimp only
        have hpv : ∀ p : Nat,
            pendV (vinsert cfg.visited board
              (state.1 ++ parent.toList, state.2.1, state.2.2)) p ≤
              pendV cfg.visited p + (if parent = some p then 1 else 0) := by
          intro p
          have hpeq := pendV_vinsert_some hlook
            (state.1 ++ parent.toList, state.2.1, state.2.2) p
          by_cases hso : state.2.2 = -1
          · rw [recContrib, if_pos hso] at hpeq
            rw [show recContrib p (state.1 ++ parent.toList, state.2.1, state.2.2) = 0 from by
              rw [recContrib, if_pos hso]] at hpeq
            omega
          · rw [recContrib, if_neg hso] at hpeq
            rw [show recContrib p (state.1 ++ parent.toList, state.2.1, state.2.2)
                = (state.1 ++ parent.toList).count p from by
              rw [recContrib, if_neg hso]] at hpeq
            rw [List.count_append, count_toList] at hpeq
            omega
        constructor
        · show MIC (vinsert cfg.visited board
              (state.1 ++ parent.toList, state.2.1, state.2.2)) rest [] [] false
          refine ⟨?_, clauseW_trivial _, ?_, ?_,
            fun p hp => absurd hp (List.not_mem_nil p),
            fun p hp => absurd hp (List.not_mem_nil p), ?_⟩
          · intro row hrow
            rcases mem_vinsert_some hSd hlook row hrow with he | ⟨hmem, hne⟩
            · subst he
              by_cases hso : state.2.2 = -1
              · exact Or.inl hso
              · rcases hrows (board, state) (vlookup_mem hlook) with hx | ⟨ho, hle, hc⟩
                · exact absurd hx hso
                right
                dsimp only at ho hle hc ⊢
                refine ⟨ho, ?_, hc⟩
                rw [incCnt_nil_nil, pend] at hle ⊢
                rw [pendQ_cons] at hle
                dsimp only at hle
                have := hpv board
                omega
            · rcases hrows row hmem with hx | ⟨ho, hle, hc⟩
              · exact Or.inl hx
              right
              refine ⟨ho, ?_, hc⟩
              rw [incCnt_nil_nil, pend] at hle ⊢
              rw [pendQ_cons] at hle
              dsimp only at hle
              have := hpv row.1
              omega
          · intro e he pp hpp
            exact memOK_vinsert _ _ (hrest e he pp hpp)
          · intro row hrow pp hpp
            rcases mem_vinsert_some hSd hlook row hrow with he | ⟨hmem, _⟩
            · subst he
              rcases List.mem_append.1 hpp with h1 | h1
              · exact memOK_vinsert _ _ (hSv (board, state) (vlookup_mem hlook) pp h1)
              · exact memOK_vinsert _ _ (hparmem pp h1)
            · exact memOK_vinsert _ _ (hSv row hmem pp hpp)
          · rw [vinsert_keys_some hlook]
            exact hSd
        · intro P ps c hP
          by_cases hPk : P = board
          · subst hPk
            rw [hlook] at hP
            injection hP with he
            refine ⟨ps ++ parent.toList, ?_⟩
            rw [vlookup_vinsert, if_pos rfl, he]
          · exact ⟨ps, by rw [vlookup_vinsert, if_neg hPk]; exact hP⟩
      | none =>
        rw [hlook] at hstep
        dsimp only at hstep
        have hparne : ∀ pp ∈ parent.toList, pp ≠ board := by
          intro pp hpp hcon
          obtain ⟨⟨rec, hr⟩, _⟩ := hparmem pp hpp
          rw [hcon, hlook] at hr
          cases hr
        have hqz : pendQ rest board = 0 := by
          refine pendQ_eq_zero ?_
          intro e he hcon
          obtain ⟨⟨rec, hr⟩, _⟩ := hrest e he board hcon
          rw [hlook] at hr
          cases hr
        have hrcz : ∀ row ∈ cfg.visited, recContrib board row.2 = 0 := by
          intro row hrow
          rw [recContrib]
          split_ifs with hso
          · rfl
          · rw [List.count_eq_zero]
            intro hmem2
            obtain ⟨⟨rec, hr⟩, _⟩ := hSv row hrow board hmem2
            rw [hlook] at hr
            cases hr
        have hvz : pendV cfg.visited board = 0 := pendV_eq_zero hrcz
        have hndb : (List.map Prod.fst cfg.visited ++ [board]).Nodup := by
          rw [List.nodup_append]
          exact ⟨hSd, List.nodup_singleton board,
            fun a ha hb => vlookup_none_not_mem hlook (List.mem_singleton.1 hb ▸ ha)⟩
        have hrowne : ∀ row ∈ cfg.visited, row.1 ≠ board := by
          intro row hrow hcon
          obtain ⟨r2, hr2⟩ := mem_vlookup_isSome hrow
          rw [hcon, hlook] at hr2
          cases hr2
        cases hwin : get_winner board with
        | none => rw [hwin] at hstep; simp at hstep
        | some w =>
          rw [hwin] at hstep
          simp only [Option.some_bind] at hstep
          by_cases hwe : w ≠ EMPTY
          · rw [if_pos hwe] at hstep
            by_cases hwp : w = get_board_player board
            · rw [if_pos hwp] at hstep
              simp at hstep
            · rw [if_neg hwp] at hstep
              cases hrc : runCascade fuel parent.toList true
                  (vinsert cfg.visited board (parent.toList, 0, 0)) with
              | none => rw [hrc] at hstep; simp at hstep
              | some v2 =>
                rw [hrc] at hstep
                simp only [Option.map_some'] at hstep
                rw [← Option.some_inj.1 hstep]
                dsimp only
                have hMIC1 : MIC (vinsert cfg.visited board (parent.toList, 0, 0)) rest
                    parent.toList [] true := by
                  refine ⟨?_, ⟨?_, fun h2 => (nomatch h2)⟩, ?_, ?_, ?_,
                    fun p hp => absurd hp (List.not_mem_nil p), ?_⟩
                  · intro row hrow
                    rcases mem_vinsert_none hlook row hrow with he | hmem
                    · subst he
                      right
                      refine ⟨le_refl (0 : Int), ?_, Nat.zero_le 126⟩
                      show (0 : Int).toNat + pend (vinsert cfg.visited board
                          (parent.toList, 0, 0)) rest board
                          + incCnt parent.toList [] true board ≤ 0
                      rw [incCnt_true, List.count_nil, pend]
                      rw [pendV_vinsert_none hlook, hvz]
                      rw [show recContrib board (parent.toList, 0, (0 : Int))
                          = parent.toList.count board from by
                        rw [recContrib, if_neg (by simp)]]
                      rw [List.count_eq_zero.2 fun hm => hparne board hm rfl]
                      omega
                    · rcases hrows row hmem with hx | ⟨ho, hle, hc⟩
                      · exact Or.inl hx
                      right
                      refine ⟨ho, ?_, hc⟩
                      rw [incCnt_nil_nil, pend, pendQ_cons] at hle
                      dsimp only at hle
                      rw [incCnt_true, List.count_nil, pend]
                      rw [pendV_vinsert_none hlook]
                      rw [show recContrib row.1 (parent.toList, 0, (0 : Int))
                          = parent.toList.count row.1 from by
                        rw [recContrib, if_neg (by simp)]]
                      rw [count_toList]
                      omega
                  · intro _ p hp rec hrec
                    have hpne := hparne p hp
                    rw [vlookup_vinsert, if_neg hpne] at hrec
                    rcases hrows (p, rec) (vlookup_mem hrec) with hx | ⟨ho, hle, hc⟩
                    · exact Or.inl hx
                    right
                    rw [incCnt_nil_nil, pend, pendQ_cons] at hle
                    dsimp only at hle
                    rw [if_pos (mem_toList_eq hp)] at hle
                    dsimp only at ho hle
                    omega
                  · intro e he pp hpp
                    exact memOK_vinsert _ _ (hrest e he pp hpp)
                  · intro row hrow pp hpp
                    rcases mem_vinsert_none hlook row hrow with he | hmem
                    · subst he
                      exact memOK_vinsert _ _ (hparmem pp hpp)
                    · exact memOK_vinsert _ _ (hSv row hmem pp hpp)
                  · intro p hp
                    exact memOK_vinsert _ _ (hparmem p hp)
                  · rw [vinsert_keys_none hlook]
                    exact hndb
                obtain ⟨hfin, hfrC⟩ := runCascade_MIC fuel parent.toList true _ v2 hMIC1 hrc
                refine ⟨hfin, ?_⟩
                intro P ps c hP
                by_cases hPk : P = board
                · subst hPk
                  rw [hlook] at hP
                  cases hP
                · refine ⟨ps, hfrC P ps c ?_⟩
                  rw [vlookup_vinsert, if_neg hPk]
                  exact hP
          · rw [if_neg hwe] at hstep
            push_neg at hwe
            subst hwe
            cases hnew : add_new_items board (get_board_player board) opponent with
            | none => rw [hnew] at hstep; simp at hstep
            | some new_items =>
              rw [hnew] at hstep
              simp only [Option.some_bind] at hstep
              cases hmoved : add_moved_items board (get_board_player board) opponent with
              | none => rw [hmoved] at hstep; simp at hstep
              | some moved_items =>
                rw [hmoved] at hstep
                simp only [Option.some_bind] at hstep
                rw [← Option.some_inj.1 hstep]
                dsimp only
                have hlen : (new_items ++ moved_items).length ≤ 108 := by
                  rw [List.length_append]
                  have h1 := add_new_items_length hnew
                  have h2 := add_moved_items_length hmoved
                  omega
                constructor
                · show MIC (vinsert cfg.visited board
                      (parent.toList, (new_items ++ moved_items).length, 0))
                      (rest ++ (new_items ++ moved_items).map fun c => (c, some board))
                      [] [] false
                  refine ⟨?_, clauseW_trivial _, ?_, ?_,
                    fun p hp => absurd hp (List.not_mem_nil p),
                    fun p hp => absurd hp (List.not_mem_nil p), ?_⟩
                  · intro row hrow
                    rcases mem_vinsert_none hlook row hrow with he | hmem
                    · subst he
                      right
                      refine ⟨le_refl (0 : Int), ?_, le_trans hlen (by omega)⟩
                      show (0 : Int).toNat + pend (vinsert cfg.visited board
                          (parent.toList, (new_items ++ moved_items).length, 0))
                          (rest ++ (new_items ++ moved_items).map fun c => (c, some board))
                          board + incCnt [] [] false board
                          ≤ (new_items ++ moved_items).length
                      rw [incCnt_nil_nil, pend, pendQ_append, pendQ_map_children,
                        if_pos rfl, hqz]
                      rw [pendV_vinsert_none hlook, hvz]
                      rw [show recContrib board
                          (parent.toList, (new_items ++ moved_items).length, (0 : Int))
                          = parent.toList.count board from by
                        rw [recContrib, if_neg (by simp)]]
                      rw [List.count_eq_zero.2 fun hm => hparne board hm rfl]
                      omega
                    · rcases hrows row hmem with hx | ⟨ho, hle, hc⟩
                      · exact Or.inl hx
                      right
                      refine ⟨ho, ?_, hc⟩
                      rw [incCnt_nil_nil, pend, pendQ_cons] at hle
                      dsimp only at hle
                      rw [incCnt_nil_nil, pend, pendQ_append, pendQ_map_children,
                        if_neg fun hbe => hrowne row hmem hbe.symm]
                      rw [pendV_vinsert_none hlook]
                      rw [show recContrib row.1
                          (parent.toList, (new_items ++ moved_items).length, (0 : Int))
                          = parent.toList.count row.1 from by
                        rw [recContrib, if_neg (by simp)]]
                      rw [count_toList]
                      omega
                  · intro e he pp hpp
                    rcases List.mem_append.1 he with h1 | h1
                    · exact memOK_vinsert _ _ (hrest e h1 pp hpp)
                    · obtain ⟨c, hc, hce⟩ := List.mem_map.1 h1
                      rw [← hce] at hpp
                      have hppb : pp = board := by
                        injection hpp with h2
                        exact h2.symm
                      subst hppb
                      refine ⟨⟨(parent.toList, (new_items ++ moved_items).length, 0), ?_⟩, hwin⟩
                      rw [vlookup_vinsert, if_pos rfl]
                  · intro row hrow pp hpp
                    rcases mem_vinsert_none hlook row hrow with he | hmem
                    · subst he
                      exact memOK_vinsert _ _ (hparmem pp hpp)
                    · exact memOK_vinsert _ _ (hSv row hmem pp hpp)
                  · rw [vinsert_keys_none hlook]
                    exact hndb
                · intro P ps c hP
                  by_cases hPk : P = board
                  · subst hPk
                    rw [hlook] at hP
                    cases hP
                  · exact ⟨ps, by rw [vlookup_vinsert, if_neg hPk]; exact hP⟩

theorem MI_initConfig : MI initConfig := by
  refine ⟨fun row hrow => absurd hrow (List.not_mem_nil row), clauseW_trivial _,
    ?_, fun row hrow => absurd hrow (List.not_mem_nil row),
    fun p hp => absurd hp (List.not_mem_nil p),
    fun p hp => absurd hp (List.not_mem_nil p), List.nodup_nil⟩
  intro e he pp hpp
  have he2 : e = (get_initial_board, none) := List.mem_singleton.1 he
  rw [he2] at hpp
  exact Option.noConfusion hpp

theorem stepN_MI {fuel : Nat} : ∀ (n : Nat) {cfg cfg2 : Config}, MI cfg →
    stepN fuel n cfg = some cfg2 →
    MI cfg2 ∧
    (∀ (P : Nat) (ps : List Nat) (c : Nat),
      vlookup cfg.visited P = some (ps, c, (c : Int)) →
      ∃ ps2, vlookup cfg2.visited P = some (ps2, c, (c : Int))) := by
  intro n
  induction n with
  | zero =>
    intro cfg cfg2 h hrun
    rw [stepN] at hrun
    injection hrun with h2
    subst h2
    exact ⟨h, fun P ps c hP => ⟨ps, hP⟩⟩
  | succ n ih =>
    intro cfg cfg2 h hrun
    rw [stepN] at hrun
    cases hs : step fuel cfg with
    | none => rw [hs] at hrun; simp at hrun
    | some cfg1 =>
      rw [hs, Option.some_bind] at hrun
      obtain ⟨h1, hf1⟩ := step_MI h hs
      obtain ⟨h2, hf2⟩ := ih h1 hrun
      refine ⟨h2, ?_⟩
      intro P ps c hP
      obtain ⟨ps2, hP2⟩ := hf1 P ps c hP
      exact hf2 P ps2 c hP2

/-- **C3.**  At every point of the traversal, every graph record whose
outcome is `Undetermined(k)` (not the `Win` value `-1`) satisfies
`0 ≤ k ≤ num_of_children` — the bad-children counter is never incremented
past the child count — and a record that has reached the implicit `Loss`
condition `k = num_of_children` keeps outcome `k` (equal to its unchanged
child count) through every later traversal step: it is never set to `Win`
nor incremented further. -/
theorem c3_outcome_invariant (fuel n : Nat) (cfg : Config)
    (hrun : stepN fuel n initConfig = some cfg) :
    (∀ (P : Nat) (ps : List Nat) (c : Nat) (o : Int),
      vlookup cfg.visited P = some (ps, c, o) →
      o = -1 ∨ (0 ≤ o ∧ o ≤ (c : Int))) ∧
    (∀ (P : Nat) (ps : List Nat) (c : Nat),
      vlookup cfg.visited P = some (ps, c, (c : Int)) →
      ∀ (m : Nat) (cfg2 : Config), stepN fuel m cfg = some cfg2 →
        ∃ ps2, vlookup cfg2.visited P = some (ps2, c, (c : Int))) := by
  obtain ⟨hMI, _⟩ := stepN_MI n MI_initConfig hrun
  constructor
  · intro P ps c o hP
    obtain ⟨hrows, _⟩ := hMI
    rcases hrows (P, (ps, c, o)) (vlookup_mem hP) with hx | ⟨ho, hle, hc⟩
    · exact Or.inl hx
    · dsimp only at ho hle
      right
      exact ⟨ho, by omega⟩
  · intro P ps c hP m cfg2 hrun2
    exact (stepN_MI m hMI hrun2).2 P ps c hP

/-- Witness for C3: after one traversal step from the seeded
configuration the seed's record is `([], 14, 0)`, and the claim theorem
instantiated there yields the outcome bound for it. -/
theorem c3_outcome_invariant_witness :
    (0 : Int) = -1 ∨ (0 ≤ (0 : Int) ∧ (0 : Int) ≤ ((14 : Nat) : Int)) :=
  (c3_outcome_invariant 1 1 _ rfl).1 get_initial_board [] 14 0 (by rfl)

end Goblici
